import Mathlib

set_option maxRecDepth 40000

/-!
Verification of the propositional WFF solver (`src/wff-solver.py`).

The program is embedded shallowly: Python strings become `List Char`
(Python's `str.isalpha` / `str.isdigit` are modelled by `Char.isAlpha` /
`Char.isDigit`, which agree on the ASCII alphabet the formulas use), the
`LogicParser` instance state that `solve_formula` resets per call
(`steps`, `reverse_steps`, `atomic_counter`, `substitutions`) becomes an
explicit state record threaded through the reduction loop, and the
unbounded `while True` loop becomes a fuel-indexed recursion whose fuel
(`length + 1`) is proved sufficient below.  Each definition mirrors the
correspondingly named Python method.
-/

namespace WffSolver

/-- The five connective symbols, the keys of `self.operators` (source lines 4-10). -/
def opsList : List Char := ['⇔', '⇒', '∨', '∧', '¬']

/-- `char in self.operators` (membership among the dict keys). -/
def isOp (c : Char) : Bool := opsList.contains c

/-- Python `s.replace(" ", "")` from source line 170: drops space characters. -/
def stripSpaces (l : List Char) : List Char := l.filter (fun c => c != ' ')

/-- Python `s[1:-1]`: drop the first and last characters. -/
def pyInner (l : List Char) : List Char := (l.drop 1).dropLast

/-- Python slice `s[i:j]` (j exclusive). -/
def seg (l : List Char) (i j : Nat) : List Char := (l.drop i).take (j - i)

/-- `is_atomic` (source lines 20-26): a single letter, or a letter followed by
a nonempty run of digits. -/
def is_atomic (formula : List Char) : Bool :=
  match formula with
  | [] => false
  | [c] => c.isAlpha
  | c :: rest => c.isAlpha && rest.all Char.isDigit

/-- `check_parentheses` (source lines 28-38): balanced-scan that fails on a
close before an open. -/
def check_parentheses (formula : List Char) : Bool :=
  go formula 0
where
  go : List Char → Int → Bool
  | [], count => count == 0
  | c :: rest, count =>
    let count' := if c = '(' then count + 1 else if c = ')' then count - 1 else count
    if count' < 0 then false else go rest count'

/-- Scanning core of `find_subformula_end` (source lines 40-50): `i` is the
absolute index of the head of the remaining list, `count` the open-paren
balance. -/
def fseAux : List Char → Nat → Int → Option Nat
  | [], _, _ => none
  | c :: rest, i, count =>
    if c = '(' then fseAux rest (i + 1) (count + 1)
    else if c = ')' then
      if count - 1 = 0 then some i else fseAux rest (i + 1) (count - 1)
    else fseAux rest (i + 1) count

/-- `find_subformula_end` (source lines 40-50): index of the parenthesis
matching the one at `start`, or `none` (Python's `-1`). -/
def find_subformula_end (formula : List Char) (start : Nat) : Option Nat :=
  fseAux (formula.drop (start + 1)) (start + 1) 1

/-- Source line 61: `after_neg[1:-1] if after_neg.endswith(')') else after_neg`. -/
def negStrip (afterNeg : List Char) : List Char :=
  if afterNeg.getLast? = some ')' then pyInner afterNeg else afterNeg

/-- `is_valid_negation` (source lines 52-66). -/
def is_valid_negation (formula : List Char) : Bool :=
  if formula.head? = some '(' && formula.getLast? = some ')' then
    let inner := pyInner formula
    if inner.head? = some '¬' then
      let afterNeg := inner.drop 1
      if is_atomic afterNeg then true
      else if afterNeg.head? = some '(' then !(is_atomic (negStrip afterNeg))
      else false
    else true
  else true

/-- The substitution table: Python dict as an association list (insertion
order preserved, at most one entry per key). -/
abbrev Subst := List (List Char × List Char)

/-- Python dict lookup `d[k]` / `d.get(k, _)`. -/
def lookupSubst : Subst → List Char → Option (List Char)
  | [], _ => none
  | (k, v) :: t, q => if k = q then some v else lookupSubst t q

/-- Python dict assignment `d[k] = v`: overwrite in place, or append. -/
def insertSubst : Subst → List Char → List Char → Subst
  | [], k, v => [(k, v)]
  | (k', v') :: t, k, v => if k' = k then (k, v) :: t else (k', v') :: insertSubst t k v

/-- Python `k in d` (key membership). -/
def memSubst (subs : Subst) (k : List Char) : Bool := (lookupSubst subs k).isSome

/-- The part-splitting loop of `is_basic_compound` (source lines 79-104):
state is (remaining input, `paren_count`, `current`, `parts`, `operator`);
`none` is the early `return False` on a second depth-zero operator. -/
def splitAux : List Char → Int → List Char → List (List Char) → Option Char →
    Option (List (List Char) × Option Char)
  | [], _, cur, parts, op =>
    some ((if cur ≠ [] then parts ++ [cur] else parts), op)
  | c :: cs, pc, cur, parts, op =>
    if c = '(' then splitAux cs (pc + 1) (cur ++ [c]) parts op
    else if c = ')' then splitAux cs (pc - 1) (cur ++ [c]) parts op
    else if pc = 0 && isOp c then
      match op with
      | none => splitAux cs pc [] (if cur ≠ [] then parts ++ [cur] else parts) (some c)
      | some _ => none
    else splitAux cs pc (cur ++ [c]) parts op

/-- `is_basic_compound` (source lines 68-111); reads `self.substitutions`,
passed here as `subs`. -/
def is_basic_compound (subs : Subst) (formula : List Char) : Bool :=
  if formula.head? = some '(' && formula.getLast? = some ')' then
    let inner := pyInner formula
    if inner.head? = some '¬' then
      let afterNeg := inner.drop 1
      is_atomic afterNeg || memSubst subs afterNeg
    else
      match splitAux inner 0 [] [] none with
      | none => false
      | some (parts, op) =>
        parts.length == 2 && op.isSome &&
          parts.all (fun p => is_atomic p || memSubst subs p)
  else false

/-- Scanning loop of `find_first_basic_compound` (source lines 121-133):
the remaining input `c :: cs` sits at absolute index `i` of the scanned
formula (so `cs = formula.drop (i + 1)`), `lvl` is `current_level`, `ml`
is `max_level`, `best` the recorded `(compound_start, compound_end)`.
Python computes `self.find_subformula_end(formula, i)` and the slice
`formula[i:potential_end + 1]`; both are taken here from the in-hand tail
— `fseAux cs (i + 1) 1 = find_subformula_end formula i` and
`(c :: cs).take (pe + 1 - i) = seg formula i (pe + 1)` whenever
`formula.drop i = c :: cs`, see `ffbcAux_tail_fse` and `ffbcAux_tail_seg`
below. -/
def ffbcAux (subs : Subst) :
    List Char → Nat → Int → Int → Option (Nat × Nat) → Option (Nat × Nat)
  | [], _, _, _, best => best
  | c :: cs, i, lvl, ml, best =>
    if c = '(' then
      let lvl' := lvl + 1
      if lvl' ≥ ml then
        match fseAux cs (i + 1) 1 with
        | some pe =>
          if is_basic_compound subs ((c :: cs).take (pe + 1 - i)) then
            ffbcAux subs cs (i + 1) lvl' lvl' (some (i, pe + 1))
          else ffbcAux subs cs (i + 1) lvl' ml best
        | none => ffbcAux subs cs (i + 1) lvl' ml best
      else ffbcAux subs cs (i + 1) lvl' ml best
    else if c = ')' then ffbcAux subs cs (i + 1) (lvl - 1) ml best
    else ffbcAux subs cs (i + 1) lvl ml best

/-- `find_first_basic_compound` (source lines 113-137): returns
`(start, end-exclusive, span text)` or `none` (Python's `(None, None, None)`). -/
def find_first_basic_compound (subs : Subst) (formula : List Char) :
    Option (Nat × Nat × List Char) :=
  match ffbcAux subs formula 0 0 0 none with
  | some (s, e) => some (s, e, seg formula s e)
  | none => none

/-- Depth-zero operator scan of `extract_components` (source lines 152-159):
`acc` is `inner[:i]`, the return is `(operator, inner[:i], inner[i+1:])`. -/
def ecAux : List Char → Int → List Char → Option (Char × List Char × List Char)
  | [], _, _ => none
  | c :: cs, pc, acc =>
    if c = '(' then ecAux cs (pc + 1) (acc ++ [c])
    else if c = ')' then ecAux cs (pc - 1) (acc ++ [c])
    else if pc = 0 && isOp c then some (c, acc, cs)
    else ecAux cs pc (acc ++ [c])

/-- `extract_components` (source lines 139-161): `(op, left?, right)`, with
`left? = none` for the negation case (Python's `('¬', None, rest)`), and
`none` overall for Python's `(None, None, None)`. -/
def extract_components (formula : List Char) :
    Option (Char × Option (List Char) × List Char) :=
  let inner := pyInner formula
  if is_atomic inner then none
  else if inner.head? = some '¬' then
    if is_valid_negation formula then some ('¬', none, inner.drop 1) else none
  else
    match ecAux inner 0 [] with
    | some (c, l, r) => some (c, some l, r)
    | none => none

/-- Decimal digit character (`str(n)` building block). -/
def digitChar (n : Nat) : Char := Char.ofNat (48 + n)

/-- Fuel-driven digit accumulator: one fuel unit per digit; `n + 1` units
always suffice since `n` has at most `n + 1` decimal digits. -/
def natDigitsCore : Nat → Nat → List Char → List Char
  | 0, _, acc => acc
  | fuel + 1, n, acc =>
    if n < 10 then digitChar n :: acc
    else natDigitsCore fuel (n / 10) (digitChar (n % 10) :: acc)

/-- Decimal representation of `n`, as Python's `str(n)` produces for the
counter values used here. -/
def natDigits (n : Nat) : List Char := natDigitsCore (n + 1) n []

/-- `generate_new_atomic` (source lines 163-166) for counter value `n`:
the placeholder text `X{n}`. -/
def placeholder (n : Nat) : List Char := 'X' :: natDigits n

/-! ### Report lines (the exact f-strings of `solve_formula`) -/

/-- Source line 175: `f"Analyzing formula: {formula}\n"`. -/
def analyzeLine (f : List Char) : List Char :=
  "Analyzing formula: ".toList ++ f ++ ['\n']

/-- Source line 182: atomic-input acceptance fact. -/
def atomicSelfLine (f : List Char) : List Char :=
  f ++ " - atomic => ".toList ++ f ++ " belongs to P(v)".toList

/-- Source line 183: `"\nTherefore, this is a well-formed formula."` (the
atomic short-circuit carries a leading newline, unlike source line 263). -/
def thereforeNL : List Char := "\nTherefore, this is a well-formed formula.".toList

/-- Source line 263: closing acceptance line of the main path. -/
def thereforeLine : List Char := "Therefore, this is a well-formed formula.".toList

/-- Source line 190: the redundant-parenthesization error. -/
def redundantLine (inner : List Char) : List Char :=
  "Error: Atomic formula ".toList ++ inner ++
    " should not be surrounded by parentheses".toList

/-- Source lines 191/222/232/265: `"\nNot a valid formula in P(v)"`. -/
def notValidNL : List Char := "\nNot a valid formula in P(v)".toList

/-- Source line 204: atomic-membership fact for token `p`. -/
def atomLine (p : List Char) : List Char :=
  p ++ " - atomic => ".toList ++ p ++ " belongs to P(v)".toList

/-- Source line 209. -/
def beginSubstLine : List Char := "\nBegin substitutions:".toList

/-- Source line 216. -/
def curFormulaLine (c : List Char) : List Char :=
  "\nCurrent formula: ".toList ++ c

/-- Source line 221. -/
def errNoBasicLine : List Char := "Error: No valid basic compound formula found".toList

/-- Source line 225. -/
def foundLine (comp : List Char) : List Char :=
  "Found principal operation ".toList ++ comp

/-- Source line 231. -/
def errInvalidLine (comp : List Char) : List Char :=
  "Error: Invalid formula format in ".toList ++ comp

/-- Source line 241: unary formation fact. -/
def negFactLine (op : Char) (r : List Char) : List Char :=
  r ++ " belongs to P(v) => (".toList ++ [op] ++ r ++ ") belongs to P(v)".toList

/-- Source line 242: unary definition step. -/
def negDefLine (op : Char) (r a : List Char) : List Char :=
  "not. (".toList ++ [op] ++ r ++ ") := ".toList ++ a ++ " => ".toList ++ a ++
    " belongs to P(v)".toList

/-- Source line 243: unary reverse-substitution entry. -/
def negRevLine (op : Char) (r a : List Char) : List Char :=
  a ++ " = (".toList ++ [op] ++ r ++ [')']

/-- Source line 247: binary formation fact. -/
def binFactLine (l : List Char) (op : Char) (r : List Char) : List Char :=
  l ++ ", ".toList ++ r ++ " belong to P(v) => (".toList ++ l ++ [op] ++ r ++
    ") belongs to P(v)".toList

/-- Source line 248: binary definition step. -/
def binDefLine (l : List Char) (op : Char) (r a : List Char) : List Char :=
  "not. (".toList ++ l ++ [op] ++ r ++ ") := ".toList ++ a ++ " => ".toList ++ a ++
    " belongs to P(v)".toList

/-- Source line 249: binary reverse-substitution entry. -/
def binRevLine (l : List Char) (op : Char) (r a : List Char) : List Char :=
  a ++ " = (".toList ++ l ++ [op] ++ r ++ [')']

/-- Source line 257. -/
def finalResultLine (c : List Char) : List Char :=
  "\nFinal result: ".toList ++ c

/-- Source line 258. -/
def revHeaderLine : List Char := "\nReverse substitution:".toList

/-- Source line 261. -/
def sinceLine (c : List Char) : List Char :=
  "\nSince ".toList ++ c ++
    " belongs to P(v) and following the substitutions backwards,".toList

/-- Source line 262: the closing line naming `original_formula` (the raw,
un-stripped argument of `solve_formula`). -/
def conclLine (orig : List Char) : List Char :=
  "we can conclude that ".toList ++ orig ++ " belongs to P(v)".toList

/-! ### The reduction engine -/

/-- Ghost observation of one reduction step: which compound span was
reduced, the substitution-table keys just before and just after its
insertion, and the working string before and after splicing.  Purely an
observer of the loop state; no field of the real state reads it. -/
structure TraceEntry where
  compound : List Char
  keysBefore : List (List Char)
  keysAfter : List (List Char)
  curBefore : List Char
  curAfter : List Char
  deriving DecidableEq

/-- The per-invocation mutable state of `solve_formula` (source lines
171-178), plus the ghost `trace`. -/
structure SolveSt where
  steps : List (List Char)
  revSteps : List (List Char)
  counter : Nat
  subs : Subst
  cur : List Char
  trace : List TraceEntry

/-- Outcome of the `while True` loop of source lines 212-253: fuel ran out
(never happens, proved below), an early `return` with error lines already
appended, or the `break` at source line 214. -/
inductive LoopOut where
  | outOfFuel : SolveSt → LoopOut
  | rejected : SolveSt → LoopOut
  | finished : SolveSt → LoopOut

/-- The keys of the substitution table, in insertion order. -/
def keysOf (subs : Subst) : List (List Char) := subs.map Prod.fst

/-- One-to-one embedding of the loop body, source lines 212-253. -/
def reduceLoop (subsidingFuel : Nat) (st : SolveSt) : LoopOut :=
  match subsidingFuel with
  | 0 => .outOfFuel st
  | fuel + 1 =>
    if is_atomic st.cur then .finished st
    else
      let st1 : SolveSt := { st with steps := st.steps ++ [curFormulaLine st.cur] }
      match find_first_basic_compound st1.subs st1.cur with
      | none => .rejected { st1 with steps := st1.steps ++ [errNoBasicLine, notValidNL] }
      | some (s, e, comp) =>
        let st2 : SolveSt := { st1 with steps := st1.steps ++ [foundLine comp] }
        match extract_components comp with
        | none =>
          .rejected { st2 with steps := st2.steps ++ [errInvalidLine comp, notValidNL] }
        | some (op, left?, right) =>
          let n := st2.counter + 1
          let newA := placeholder n
          let stepLines :=
            if op = '¬' then
              let rightStr := if is_atomic right then right
                else (lookupSubst st2.subs right).getD right
              ([negFactLine op rightStr, negDefLine op rightStr newA],
                negRevLine op rightStr newA)
            else
              let l := left?.getD []
              let leftStr := if is_atomic l then l else (lookupSubst st2.subs l).getD l
              let rightStr := if is_atomic right then right
                else (lookupSubst st2.subs right).getD right
              ([binFactLine leftStr op rightStr, binDefLine leftStr op rightStr newA],
                binRevLine leftStr op rightStr newA)
          let subs' := insertSubst st2.subs comp newA
          let cur' := st2.cur.take s ++ newA ++ st2.cur.drop e
          let entry : TraceEntry :=
            ⟨comp, keysOf st2.subs, keysOf subs', st2.cur, cur'⟩
          reduceLoop fuel
            { steps := st2.steps ++ stepLines.1
              revSteps := stepLines.2 :: st2.revSteps
              counter := n
              subs := subs'
              cur := cur'
              trace := st2.trace ++ [entry] }

/-- Iteration core of the first `while` of `solve_formula` (source lines
195-207): each fuel unit is one iteration of the Python loop, and each
iteration advances past at least one character, so `l.length` units
suffice (`scanAtomicsAux_fuel` below). -/
def scanAtomicsAux : Nat → List Char → List (List Char) → List (List Char)
  | 0, _, _ => []
  | fuel + 1, l, seen =>
    match l with
    | [] => []
    | c :: rest =>
      if c.isAlpha then
        let tok := c :: rest.takeWhile Char.isDigit
        let rest' := rest.dropWhile Char.isDigit
        if is_atomic tok && !(seen.contains tok) then
          atomLine tok :: scanAtomicsAux fuel rest' (seen ++ [tok])
        else scanAtomicsAux fuel rest' seen
      else scanAtomicsAux fuel rest seen

/-- The first `while` of `solve_formula` (source lines 195-207): collect
one atomic-membership line per distinct `letter digits*` token, in
first-seen order.  `seen` is the `atomic_vars` set. -/
def scanAtomics (l : List Char) (seen : List (List Char)) : List (List Char) :=
  scanAtomicsAux l.length l seen

/-- `solve_formula` on the already-stripped formula, up to the splice of
`original_formula`: returns the step lines (without the final
`conclLine`/`thereforeLine` pair when the main acceptance exit is taken,
signalled by the `Bool`), and the ghost trace.  `none` only on fuel
exhaustion, which is proved impossible.  Mirrors source lines 171-267. -/
def runSolve (formula : List Char) : Option (List (List Char) × Bool × List TraceEntry) :=
  if is_atomic formula then
    some ([analyzeLine formula] ++ [atomicSelfLine formula, thereforeNL], false, [])
  else if formula.head? = some '(' && formula.getLast? = some ')'
      && is_atomic (pyInner formula) then
    some ([analyzeLine formula] ++ [redundantLine (pyInner formula), notValidNL],
      false, [])
  else
    match reduceLoop (formula.length + 1)
        { steps := [analyzeLine formula] ++ scanAtomics formula [] ++ [beginSubstLine],
          revSteps := [], counter := 0, subs := [],
          cur := formula, trace := [] } with
    | .outOfFuel _ => none
    | .rejected st => some (st.steps, false, st.trace)
    | .finished st =>
      if is_atomic st.cur then
        some (st.steps ++ [finalResultLine st.cur, revHeaderLine] ++ st.revSteps
            ++ [sinceLine st.cur], true, st.trace)
      else some (st.steps ++ [notValidNL], false, st.trace)

/-- The step-line list of `solve_formula original_formula` (the returned
report is these lines joined with newlines).  `original_formula` itself is
used twice: stripped of spaces as the working formula, and raw inside
`conclLine` (source line 262). -/
def solveSteps (orig : List Char) : Option (List (List Char)) :=
  (runSolve (stripSpaces orig)).map
    (fun out => out.1 ++ if out.2.1 then [conclLine orig, thereforeLine] else [])

/-- `solve_formula` (source lines 168-267): the report string,
`"\n".join(steps)`. -/
def solve_formula (orig : List Char) : Option (List Char) :=
  (solveSteps orig).map (List.intercalate ['\n'])

/-- Ghost reduction trace of one `solve_formula` invocation. -/
def solveTrace (orig : List Char) : List TraceEntry :=
  ((runSolve (stripSpaces orig)).map (fun out => out.2.2)).getD []

/-- Number of `'('` characters, the quantity each reduction step strictly
decreases. -/
def countOpen (l : List Char) : Nat := l.countP (fun c => c == '(')

/-- Parenthesis-balance contribution of one character. -/
def balDelta (c : Char) : Int := if c = '(' then 1 else if c = ')' then -1 else 0

/-- Running parenthesis balance. -/
def bal : List Char → Int
  | [] => 0
  | c :: cs => balDelta c + bal cs

/-- `current_level` just after the scanner of `find_first_basic_compound`
consumed the opening parenthesis at index `i`: the nesting depth Python
compares against `max_level`. -/
def depthAt (f : List Char) (i : Nat) : Int := bal (f.take i) + 1

/-- Candidate positions of the scanner: index `i` carries an opening
parenthesis whose matching close exists, the delimited span passes
`is_basic_compound`, and the depth is nonnegative (`max_level` starts at 0
and only grows, so a span opened at negative depth — possible only in
strings with unbalanced prefixes — is never even tested). -/
def candB (subs : Subst) (f : List Char) (i : Nat) : Bool :=
  ((f.drop i).head? == some '(') &&
  (match find_subformula_end f i with
   | some pe => is_basic_compound subs (seg f i (pe + 1))
   | none => false) &&
  decide (0 ≤ depthAt f i)

/-- Number of positions at which the splitting loop of
`is_basic_compound` sees an operator character with `paren_count = 0`,
scanning from initial balance `pc`: the count of depth-zero connective
occurrences. -/
def topOps : Int → List Char → Nat
  | _, [] => 0
  | pc, c :: cs =>
    if c = '(' then topOps (pc + 1) cs
    else if c = ')' then topOps (pc - 1) cs
    else (if pc = 0 && isOp c then 1 else 0) + topOps pc cs

/-- `p` wrapped in `k` explicit parenthesis pairs: the inputs of the
redundant-parenthesization scenario. -/
def wrapParens : Nat → List Char → List Char
  | 0, p => p
  | k + 1, p => ('(' :: wrapParens k p) ++ [')']

/-- The placeholder residue accumulated by the run of `solve_formula` on
juxtaposed copies of `(¬P)`: after `m` reductions the reduced region reads
`X{m}X{m-1}...X1` (each step replaces the rightmost remaining copy, so the
newest placeholder sits leftmost). -/
def phTail : Nat → List Char
  | 0 => []
  | m + 1 => placeholder (m + 1) ++ phTail m

/-- Invariant of the scanner of `find_first_basic_compound` after the
first `i` characters: `ml` is the maximum depth of the candidates seen so
far (0 if none), and `best` is the rightmost candidate among those of
depth `ml`. -/
def ScanInv (subs : Subst) (f : List Char) (i : Nat) (ml : Int)
    (best : Option (Nat × Nat)) : Prop :=
  0 ≤ ml ∧
  match best with
  | none => ml = 0 ∧ ∀ j < i, candB subs f j = false
  | some (s, e) => candB subs f s = true ∧ s < i ∧ depthAt f s = ml ∧
      (∃ pe, find_subformula_end f s = some pe ∧ e = pe + 1) ∧
      (∀ j < i, candB subs f j = true → depthAt f j ≤ ml) ∧
      (∀ j < i, candB subs f j = true → depthAt f j = ml → j ≤ s)


/-! ## Basic scanning lemmas -/

/-- The tail-local matching-parenthesis scan of `ffbcAux` is exactly
`find_subformula_end` of the enclosing formula. -/
theorem ffbcAux_tail_fse (f : List Char) (i : Nat) (c : Char) (cs : List Char)
    (h : f.drop i = c :: cs) : fseAux cs (i + 1) 1 = find_subformula_end f i := by
  have : f.drop (i + 1) = cs := by
    rw [← List.drop_drop 1 i f, h]
    rfl
  rw [find_subformula_end, this]

/-- The tail-local slice of `ffbcAux` is exactly the Python slice
`formula[i:pe+1]`. -/
theorem ffbcAux_tail_seg (f : List Char) (i pe : Nat) (c : Char) (cs : List Char)
    (h : f.drop i = c :: cs) : (c :: cs).take (pe + 1 - i) = seg f i (pe + 1) := by
  rw [seg, h]

/-- Length bound used for the fuel of the atomic-token scan. -/
theorem dropWhile_len_le (p : Char → Bool) (l : List Char) :
    (l.dropWhile p).length ≤ l.length := by
  induction l with
  | nil => simp [List.dropWhile]
  | cons c cs ih =>
    by_cases h : p c
    · simp only [List.dropWhile, h]
      exact Nat.le_succ_of_le ih
    · simp [List.dropWhile, h]

/-- Any fuel of at least `l.length` computes the same scan, so
`scanAtomics` below is fuel-independent (the Python loop runs without a
bound). -/
theorem scanAtomicsAux_fuel (fuel₁ fuel₂ : Nat) (l : List Char)
    (seen : List (List Char)) (h₁ : l.length ≤ fuel₁) (h₂ : l.length ≤ fuel₂) :
    scanAtomicsAux fuel₁ l seen = scanAtomicsAux fuel₂ l seen := by
  induction fuel₁ generalizing fuel₂ l seen with
  | zero =>
    have hl : l = [] := List.eq_nil_of_length_eq_zero (Nat.le_zero.mp h₁)
    subst hl
    cases fuel₂ <;> rfl
  | succ f ih =>
    cases l with
    | nil => cases fuel₂ <;> rfl
    | cons c rest =>
      rw [List.length_cons] at h₁ h₂
      cases fuel₂ with
      | zero => omega
      | succ f₂ =>
        have hrest : rest.length ≤ f := by omega
        have hrest₂ : rest.length ≤ f₂ := by omega
        have hdrop : (rest.dropWhile Char.isDigit).length ≤ rest.length :=
          dropWhile_len_le _ _
        simp only [scanAtomicsAux]
        by_cases hc : c.isAlpha
        · simp only [hc, if_true]
          by_cases ht : (is_atomic (c :: rest.takeWhile Char.isDigit)
              && !(seen.contains (c :: rest.takeWhile Char.isDigit))) = true
          · simp only [ht, if_true]
            rw [ih f₂ (rest.dropWhile Char.isDigit)
              (seen ++ [c :: rest.takeWhile Char.isDigit])
              (by omega) (by omega)]
          · simp only [ht, if_false]
            exact ih f₂ _ seen (by omega) (by omega)
        · simp only [hc, if_false]
          exact ih f₂ rest seen hrest hrest₂

/-! ## Character-class facts -/

theorem opsList_not_alpha : ∀ c ∈ opsList, c.isAlpha = false := by decide

theorem opsList_not_digit : ∀ c ∈ opsList, c.isDigit = false := by decide

theorem isOp_mem {c : Char} (h : isOp c = true) : c ∈ opsList := by
  simpa [isOp] using h

theorem isAlpha_not_op {c : Char} (h : c.isAlpha = true) : isOp c = false := by
  by_contra h'
  rw [Bool.not_eq_false] at h'
  rw [opsList_not_alpha c (isOp_mem h')] at h
  cases h

theorem isDigit_not_op {c : Char} (h : c.isDigit = true) : isOp c = false := by
  by_contra h'
  rw [Bool.not_eq_false] at h'
  rw [opsList_not_digit c (isOp_mem h')] at h
  cases h

/-- Every character of an atomic token is a letter or a digit. -/
theorem is_atomic_chars {p : List Char} (h : is_atomic p = true) :
    ∀ c ∈ p, c.isAlpha = true ∨ c.isDigit = true := by
  cases p with
  | nil => simp [is_atomic] at h
  | cons c rest =>
    cases rest with
    | nil =>
      intro d hd
      rw [List.mem_singleton] at hd
      subst hd
      exact Or.inl (by simpa [is_atomic] using h)
    | cons d rest' =>
      simp only [is_atomic, Bool.and_eq_true, List.all_eq_true] at h
      intro e he
      rcases List.mem_cons.mp he with rfl | he'
      · exact Or.inl h.1
      · exact Or.inr (h.2 e he')

/-- Atomic tokens contain no space, so whitespace stripping fixes them. -/
theorem stripSpaces_atomic {p : List Char} (h : is_atomic p = true) :
    stripSpaces p = p := by
  rw [stripSpaces, List.filter_eq_self]
  intro c hc
  rcases is_atomic_chars h c hc with ha | hd
  · simp only [bne_iff_ne, ne_eq]
    rintro rfl
    simp at ha
  · simp only [bne_iff_ne, ne_eq]
    rintro rfl
    simp at hd

/-! ## List-scanning helper lemmas -/

/-- A nonempty tail pins the index below the length. -/
theorem drop_cons_lt_length {f : List Char} {i : Nat} {c : Char} {cs : List Char}
    (h : f.drop i = c :: cs) : i < f.length := by
  by_contra h'
  push_neg at h'
  rw [List.drop_eq_nil_of_le h'] at h
  cases h

/-- Advancing one position past a known head. -/
theorem drop_succ_of_drop_cons {f : List Char} {i : Nat} {c : Char} {cs : List Char}
    (h : f.drop i = c :: cs) : f.drop (i + 1) = cs := by
  rw [← List.drop_drop 1 i f, h]
  rfl

/-- The matching-parenthesis scan returns an index inside the scanned
suffix. -/
theorem fseAux_bounds :
    ∀ (l : List Char) (idx : Nat) (cnt : Int) (j : Nat),
      fseAux l idx cnt = some j → idx ≤ j ∧ j < idx + l.length := by
  intro l
  induction l with
  | nil => intro idx cnt j h; simp [fseAux] at h
  | cons c cs ih =>
    intro idx cnt j h
    simp only [fseAux] at h
    by_cases h1 : c = '('
    · rw [if_pos h1] at h
      have := ih (idx + 1) (cnt + 1) j h
      simp only [List.length_cons]
      omega
    · rw [if_neg h1] at h
      by_cases h2 : c = ')'
      · rw [if_pos h2] at h
        by_cases h3 : cnt - 1 = 0
        · rw [if_pos h3, Option.some_inj] at h
          subst h
          simp only [List.length_cons]
          omega
        · rw [if_neg h3] at h
          have := ih (idx + 1) (cnt - 1) j h
          simp only [List.length_cons]
          omega
      · rw [if_neg h2] at h
        have := ih (idx + 1) cnt j h
        simp only [List.length_cons]
        omega

/-- Every `some` result the scanner of `find_first_basic_compound` can
carry denotes a well-formed span: it starts at an opening parenthesis and
lies inside the formula. -/
theorem ffbcAux_ok (subs : Subst) (f : List Char) :
    ∀ (cs : List Char) (i : Nat) (lvl ml : Int) (best : Option (Nat × Nat)),
      cs = f.drop i →
      (∀ s e, best = some (s, e) →
        ∃ cs', f.drop s = '(' :: cs' ∧ s < e ∧ e ≤ f.length) →
      ∀ s e, ffbcAux subs cs i lvl ml best = some (s, e) →
        ∃ cs', f.drop s = '(' :: cs' ∧ s < e ∧ e ≤ f.length := by
  intro cs
  induction cs with
  | nil =>
    intro i lvl ml best _ hbest s e hres
    exact hbest s e hres
  | cons c cs' ih =>
    intro i lvl ml best hdrop hbest s e hres
    have hdrop' : f.drop (i + 1) = cs' := drop_succ_of_drop_cons hdrop.symm
    simp only [ffbcAux] at hres
    by_cases h1 : c = '('
    · rw [if_pos h1] at hres
      by_cases h2 : lvl + 1 ≥ ml
      · rw [if_pos h2] at hres
        cases hf : fseAux cs' (i + 1) 1 with
        | none =>
          rw [hf] at hres
          exact ih (i + 1) (lvl + 1) ml best hdrop'.symm hbest s e hres
        | some pe =>
          rw [hf] at hres
          have hres1 :
              (if is_basic_compound subs ((c :: cs').take (pe + 1 - i)) = true then
                ffbcAux subs cs' (i + 1) (lvl + 1) (lvl + 1) (some (i, pe + 1))
              else ffbcAux subs cs' (i + 1) (lvl + 1) ml best) = some (s, e) := hres
          by_cases h3 : is_basic_compound subs ((c :: cs').take (pe + 1 - i)) = true
          · rw [if_pos h3] at hres1
            refine ih (i + 1) (lvl + 1) (lvl + 1) (some (i, pe + 1)) hdrop'.symm
              ?_ s e hres1
            intro s' e' hbe
            rw [Option.some_inj, Prod.mk.injEq] at hbe
            obtain ⟨rfl, rfl⟩ := hbe
            have hb := fseAux_bounds cs' (i + 1) 1 pe hf
            have hlen : cs'.length = f.length - (i + 1) := by
              rw [← hdrop', List.length_drop]
            have hi : i < f.length := drop_cons_lt_length hdrop.symm
            refine ⟨cs', ?_, by omega, by omega⟩
            rw [← hdrop, h1]
          · rw [if_neg h3] at hres1
            exact ih (i + 1) (lvl + 1) ml best hdrop'.symm hbest s e hres1
      · rw [if_neg h2] at hres
        exact ih (i + 1) (lvl + 1) ml best hdrop'.symm hbest s e hres
    · rw [if_neg h1] at hres
      by_cases h2 : c = ')'
      · rw [if_pos h2] at hres
        exact ih (i + 1) (lvl - 1) ml best hdrop'.symm hbest s e hres
      · rw [if_neg h2] at hres
        exact ih (i + 1) lvl ml best hdrop'.symm hbest s e hres

/-- Span validity of a successful `find_first_basic_compound`. -/
theorem find_ok {subs : Subst} {f : List Char} {s e : Nat} {comp : List Char}
    (h : find_first_basic_compound subs f = some (s, e, comp)) :
    ∃ cs', f.drop s = '(' :: cs' ∧ s < e ∧ e ≤ f.length ∧ comp = seg f s e := by
  unfold find_first_basic_compound at h
  cases hr : ffbcAux subs f 0 0 0 none with
  | none =>
    rw [hr] at h
    have hnone : (none : Option (Nat × Nat × List Char)) = some (s, e, comp) := h
    cases hnone
  | some p =>
    obtain ⟨s', e'⟩ := p
    rw [hr] at h
    have h2 : some (s', e', seg f s' e') = some (s, e, comp) := h
    rw [Option.some_inj, Prod.mk.injEq, Prod.mk.injEq] at h2
    obtain ⟨rfl, rfl, hseg⟩ := h2
    obtain ⟨cs', hd, hlt, hle⟩ :=
      ffbcAux_ok subs f f 0 0 0 none (List.drop_zero f).symm
        (by intro u v hbe; cases hbe) s' e' hr
    exact ⟨cs', hd, hlt, hle, hseg.symm⟩

/-! ## Open-parenthesis counting -/

theorem countOpen_append (a b : List Char) :
    countOpen (a ++ b) = countOpen a + countOpen b :=
  List.countP_append _ _ _

theorem countOpen_le_length (l : List Char) : countOpen l ≤ l.length :=
  List.countP_le_length _

/-- Decimal digit characters really are digits. -/
theorem digitChar_isDigit {d : Nat} (h : d < 10) : (digitChar d).isDigit = true := by
  interval_cases d <;> decide

/-- The digit accumulator only ever emits digit characters. -/
theorem natDigitsCore_digits :
    ∀ (fuel n : Nat) (acc : List Char), (∀ c ∈ acc, c.isDigit = true) →
      ∀ c ∈ natDigitsCore fuel n acc, c.isDigit = true := by
  intro fuel
  induction fuel with
  | zero => intro n acc hacc c hc; exact hacc c hc
  | succ fl ih =>
    intro n acc hacc c hc
    rw [natDigitsCore] at hc
    by_cases h : n < 10
    · rw [if_pos h] at hc
      rcases List.mem_cons.mp hc with rfl | hmem
      · exact digitChar_isDigit h
      · exact hacc c hmem
    · rw [if_neg h] at hc
      refine ih (n / 10) _ ?_ c hc
      intro d hd
      rcases List.mem_cons.mp hd with rfl | hmem
      · exact digitChar_isDigit (Nat.mod_lt _ (by omega))
      · exact hacc d hmem

/-- A placeholder `X<n>` contains no parentheses at all. -/
theorem placeholder_countOpen (n : Nat) : countOpen (placeholder n) = 0 := by
  rw [placeholder, countOpen, List.countP_cons]
  have h1 : (('X' : Char) == '(') = false := by decide
  rw [h1]
  simp only [Bool.false_eq_true, if_false, Nat.add_zero]
  rw [List.countP_eq_zero]
  intro a ha
  have hd := natDigitsCore_digits (n + 1) n [] (by intro c hc; cases hc) a
    (by rw [natDigits] at ha; exact ha)
  simp only [beq_iff_eq]
  rintro rfl
  exact absurd hd (by decide)

/-- Decomposing a list around a slice. -/
theorem take_seg_drop (f : List Char) (s e : Nat) (h1 : s ≤ e) (_h2 : e ≤ f.length) :
    f = f.take s ++ seg f s e ++ f.drop e := by
  have h4 : (f.drop s).drop (e - s) = f.drop e := by
    rw [List.drop_drop]
    congr 1
    omega
  calc f = f.take s ++ f.drop s := (List.take_append_drop s f).symm
    _ = f.take s ++ ((f.drop s).take (e - s) ++ (f.drop s).drop (e - s)) := by
        rw [List.take_append_drop (e - s) (f.drop s)]
    _ = f.take s ++ (seg f s e ++ f.drop e) := by rw [h4, seg]
    _ = f.take s ++ seg f s e ++ f.drop e := by rw [List.append_assoc]

/-- Slices of operator-free strings are operator-free, the base fact for
rejecting spans of purely structural characters. -/
theorem mem_seg {f : List Char} {i j : Nat} {c : Char} (h : c ∈ seg f i j) :
    c ∈ f := by
  rw [seg] at h
  exact (List.drop_sublist i f).mem ((List.take_sublist _ _).mem h)

/-- A slice that starts at an opening parenthesis contains one. -/
theorem countOpen_seg_pos {f : List Char} {s e : Nat} {cs' : List Char}
    (hd : f.drop s = '(' :: cs') (hlt : s < e) : 0 < countOpen (seg f s e) := by
  rw [seg, hd]
  obtain ⟨k, hk⟩ : ∃ k, e - s = k + 1 := ⟨e - s - 1, by omega⟩
  rw [hk, List.take_succ_cons, countOpen, List.countP_cons]
  simp

/-- Splicing a parenthesis-free replacement over a span that starts with
`'('` strictly decreases the open-parenthesis count. -/
theorem countOpen_splice_lt {f newA : List Char} {s e : Nat} {cs' : List Char}
    (hd : f.drop s = '(' :: cs') (hlt : s < e) (hle : e ≤ f.length)
    (hn : countOpen newA = 0) :
    countOpen (f.take s ++ newA ++ f.drop e) < countOpen f := by
  have hdecomp := take_seg_drop f s e (le_of_lt hlt) hle
  have hpos := countOpen_seg_pos hd hlt
  conv_rhs => rw [hdecomp]
  rw [countOpen_append, countOpen_append, countOpen_append, countOpen_append, hn]
  omega

/-! ## Substitution-table key lemmas -/

theorem keysOf_insert_mem (subs : Subst) (k v : List Char) :
    k ∈ keysOf (insertSubst subs k v) := by
  induction subs with
  | nil => simp [insertSubst, keysOf]
  | cons p t ih =>
    obtain ⟨k', v'⟩ := p
    by_cases h : k' = k
    · simp [insertSubst, h, keysOf]
    · rw [insertSubst, if_neg h, keysOf, List.map_cons]
      exact List.mem_cons_of_mem _ ih

theorem keysOf_insert_sub (subs : Subst) (k v : List Char) :
    keysOf subs ⊆ keysOf (insertSubst subs k v) := by
  induction subs with
  | nil => simp [keysOf]
  | cons p t ih =>
    obtain ⟨k', v'⟩ := p
    by_cases h : k' = k
    · subst h
      rw [insertSubst, if_pos rfl]
      intro a ha
      rw [keysOf, List.map_cons] at ha ⊢
      exact ha
    · rw [insertSubst, if_neg h]
      intro a ha
      rw [keysOf, List.map_cons] at ha
      rw [keysOf, List.map_cons]
      rcases List.mem_cons.mp ha with rfl | hmem
      · exact List.mem_cons_self _ _
      · exact List.mem_cons_of_mem _ (ih hmem)

/-- Last line of a two-element append. -/
theorem getLast?_append_pair (xs : List (List Char)) (a b : List Char) :
    (xs ++ [a, b]).getLast? = some b := by
  have h : xs ++ [a, b] = (xs ++ [a]) ++ [b] := by
    rw [List.append_assoc]
    rfl
  rw [h, List.getLast?_concat]

/-! ## C10: `is_atomic` accepts lowercase letters -/

/-- C10: `is_atomic` is not restricted to uppercase ASCII: it accepts any
letter followed by digits only (Python's `str.isalpha`), and consequently
`solve` takes the immediate-accept atomic path on `p` and on `q7` —
the reports carry exactly the atomic fact line and the acceptance line. -/
theorem c10_is_atomic_any_letter :
    (∀ (c : Char) (rest : List Char), c.isAlpha = true →
      rest.all Char.isDigit = true → is_atomic (c :: rest) = true)
    ∧ solveSteps "p".toList =
        some [analyzeLine "p".toList, atomicSelfLine "p".toList, thereforeNL]
    ∧ solveSteps "q7".toList =
        some [analyzeLine "q7".toList, atomicSelfLine "q7".toList, thereforeNL] := by
  refine ⟨fun c rest hc hd => ?_, by decide, by decide⟩
  cases rest with
  | nil => simpa [is_atomic] using hc
  | cons d ds => simp only [is_atomic, hc, hd, Bool.and_self]

/-- Witness for C10 at the concrete letter `p`. -/
theorem c10_witness : is_atomic "p".toList = true :=
  c10_is_atomic_any_letter.1 'p' [] (by decide) (by decide)

/-! ## C9: atomic inputs accept immediately -/

/-- C9: for every atomic proposition `p`, `solve(p)` short-circuits: the
report is exactly the analyzing header, one atomic-membership fact line and
the acceptance line — no reduction steps at all. -/
theorem c9_atomic_immediate_accept (p : List Char) (h : is_atomic p = true) :
    solveSteps p = some [analyzeLine p, atomicSelfLine p, thereforeNL] := by
  simp [solveSteps, runSolve, stripSpaces_atomic h, h]

/-- Witness for C9 at the atomic proposition `P`. -/
theorem c9_witness :
    is_atomic "P".toList = true ∧
    solveSteps "P".toList =
      some [analyzeLine "P".toList, atomicSelfLine "P".toList, thereforeNL] :=
  ⟨by decide, c9_atomic_immediate_accept "P".toList (by decide)⟩

/-! ## C3: characterization of `is_valid_negation` -/

/-- A string is "wrapped in a single outer parenthesis pair" in the sense of
the Python `startswith`/`endswith` test iff it literally decomposes as
`'(' … ')'`. -/
theorem wrapped_iff (s : List Char) :
    (s.head? = some '(' ∧ s.getLast? = some ')') ↔
      ∃ mid, s = '(' :: mid ++ [')'] := by
  constructor
  · rintro ⟨h1, h2⟩
    cases s with
    | nil => simp at h1
    | cons c rest =>
      rw [List.head?_cons, Option.some_inj] at h1
      subst h1
      rcases List.eq_nil_or_concat rest with rfl | ⟨mid, a, rfl⟩
      · simp at h2
      · rw [List.concat_eq_append, ← List.cons_append, List.getLast?_concat,
          Option.some_inj] at h2
        subst h2
        exact ⟨mid, by rw [List.concat_eq_append, List.cons_append]⟩
  · rintro ⟨mid, rfl⟩
    exact ⟨rfl, List.getLast?_concat _⟩

/-- `s[1:-1]` of a wrapped string is its interior. -/
theorem pyInner_wrap (mid : List Char) : pyInner ('(' :: mid ++ [')']) = mid := by
  simp [pyInner]

/-- C3 counterexample: `is_valid_negation` accepts the wrapped string
`(P∧Q)` even though its inner content does not start with `¬`, refuting
"for every wrapped s it returns true only if the inner content starts with
the negation symbol". -/
theorem c3_counterexample :
    is_valid_negation "(P∧Q)".toList = true ∧
    "(P∧Q)".toList.head? = some '(' ∧
    "(P∧Q)".toList.getLast? = some ')' ∧
    ¬ (pyInner "(P∧Q)".toList).head? = some '¬' := by decide

/-- C3 (amended): `is_valid_negation` returns true for every string not
wrapped in an outer parenthesis pair, **and** for every wrapped string
whose inner content does not start with `¬` (the predicate constrains only
wrapped strings that do start with `¬`); for a wrapped `(¬ rest)` it
returns true iff `rest` is atomic, or `rest` starts with `(` and its
paren-stripped form is not atomic (rejecting the double-wrap `(¬(P))`). -/
theorem c3_amended (s : List Char) :
    is_valid_negation s = true ↔
      ((∀ mid, s ≠ '(' :: mid ++ [')'])
        ∨ (∃ mid, s = '(' :: mid ++ [')'] ∧ mid.head? ≠ some '¬')
        ∨ (∃ rest, s = '(' :: '¬' :: rest ++ [')'] ∧
            (is_atomic rest = true ∨
              (rest.head? = some '(' ∧ is_atomic (negStrip rest) = false)))) := by
  by_cases hw : s.head? = some '(' ∧ s.getLast? = some ')'
  · obtain ⟨mid, rfl⟩ := (wrapped_iff s).mp hw
    have hinj : ∀ mid' : List Char,
        ('(' :: mid' ++ [')'] : List Char) = '(' :: mid ++ [')'] → mid' = mid := by
      intro mid' he
      have he' := List.append_cancel_right he
      injection he'
    simp only [is_valid_negation, Bool.and_eq_true, decide_eq_true_eq]
    rw [if_pos hw, pyInner_wrap]
    by_cases hm : mid.head? = some '¬'
    · cases mid with
      | nil => simp at hm
      | cons m ms =>
        rw [List.head?_cons, Option.some_inj] at hm
        subst hm
        rw [if_pos (show ('¬' :: ms).head? = some '¬' from rfl)]
        have hdrop : ('¬' :: ms).drop 1 = ms := rfl
        rw [hdrop]
        constructor
        · intro hv
          refine Or.inr (Or.inr ⟨ms, rfl, ?_⟩)
          by_cases ha : is_atomic ms = true
          · exact Or.inl ha
          · rw [if_neg ha] at hv
            by_cases hp : ms.head? = some '('
            · rw [if_pos hp, Bool.not_eq_true'] at hv
              exact Or.inr ⟨hp, hv⟩
            · rw [if_neg hp] at hv
              cases hv
        · rintro (hno | ⟨mid', he, hne⟩ | ⟨rest, he, hcase⟩)
          · exact absurd rfl (hno ('¬' :: ms))
          · rw [hinj mid' he.symm] at hne
            simp at hne
          · have hr : rest = ms := by
              have h1 := hinj ('¬' :: rest) he.symm
              injection h1
            subst hr
            rcases hcase with ha | ⟨hp, hns⟩
            · rw [if_pos ha]
            · by_cases ha : is_atomic rest = true
              · rw [if_pos ha]
              · rw [if_neg ha, if_pos hp, hns]
                rfl
    · rw [if_neg hm]
      refine iff_of_true rfl (Or.inr (Or.inl ⟨mid, rfl, hm⟩))
  · simp only [is_valid_negation, Bool.and_eq_true, decide_eq_true_eq]
    rw [if_neg hw]
    exact iff_of_true rfl
      (Or.inl fun mid he => hw ((wrapped_iff s).mpr ⟨mid, he⟩))

/-- Witness for C3 (amended) at the valid negation `(¬P)`. -/
theorem c3_witness :
    is_valid_negation "(¬P)".toList = true ↔
      ((∀ mid, "(¬P)".toList ≠ '(' :: mid ++ [')'])
        ∨ (∃ mid, "(¬P)".toList = '(' :: mid ++ [')'] ∧ mid.head? ≠ some '¬')
        ∨ (∃ rest, "(¬P)".toList = '(' :: '¬' :: rest ++ [')'] ∧
            (is_atomic rest = true ∨
              (rest.head? = some '(' ∧ is_atomic (negStrip rest) = false)))) :=
  c3_amended "(¬P)".toList

/-! ## C1: whitespace insensitivity up to the closing line -/

/-- C1 counterexample: inserting a space changes the accepted report,
because the closing line quotes the raw (un-stripped) input. -/
theorem c1_counterexample :
    stripSpaces "( ¬P)".toList = stripSpaces "(¬P)".toList ∧
    solve_formula "( ¬P)".toList ≠ solve_formula "(¬P)".toList := by
  exact ⟨by decide, by decide⟩

/-- C1 (amended): two inputs with the same space-stripped form produce the
same step lines except possibly for the single closing acceptance line,
which quotes the raw input; in particular every rejection report (and the
immediate-atomic acceptance) coincides exactly. -/
theorem c1_amended (f g : List Char) (h : stripSpaces f = stripSpaces g) :
    (solveSteps f = none ∧ solveSteps g = none)
    ∨ (∃ pre, solveSteps f = some pre ∧ solveSteps g = some pre)
    ∨ (∃ pre, solveSteps f = some (pre ++ [conclLine f, thereforeLine])
          ∧ solveSteps g = some (pre ++ [conclLine g, thereforeLine])) := by
  unfold solveSteps
  rw [h]
  cases hr : runSolve (stripSpaces g) with
  | none => exact Or.inl ⟨rfl, rfl⟩
  | some out =>
    obtain ⟨pre, b, t⟩ := out
    cases b with
    | false => exact Or.inr (Or.inl ⟨pre, by simp, by simp⟩)
    | true => exact Or.inr (Or.inr ⟨pre, by simp, by simp⟩)

/-- Witness for C1 (amended) on the space-variant pair `( ¬P)` / `(¬P)`. -/
theorem c1_witness :
    stripSpaces "( ¬P)".toList = stripSpaces "(¬P)".toList ∧
    ((solveSteps "( ¬P)".toList = none ∧ solveSteps "(¬P)".toList = none)
    ∨ (∃ pre, solveSteps "( ¬P)".toList = some pre
          ∧ solveSteps "(¬P)".toList = some pre)
    ∨ (∃ pre, solveSteps "( ¬P)".toList =
            some (pre ++ [conclLine "( ¬P)".toList, thereforeLine])
          ∧ solveSteps "(¬P)".toList =
            some (pre ++ [conclLine "(¬P)".toList, thereforeLine]))) :=
  ⟨by decide, c1_amended "( ¬P)".toList "(¬P)".toList (by decide)⟩

/-! ## The reduction-loop master invariant -/

/-- One induction over the loop of source lines 212-253 establishing: the
fuel `countOpen st.cur + 1` never runs out (each reduction removes at
least the compound's opening parenthesis and inserts a parenthesis-free
placeholder), every rejection exit ends its step list with the
`Not a valid formula` line, the loop breaks only with an atomic working
string, the trace grows by at most one entry per lost `'('`, and every
new trace entry records a strict `'('-count` decrease and an
insert-only substitution-table step. -/
theorem reduceLoop_master :
    ∀ (fuel : Nat) (st : SolveSt), countOpen st.cur < fuel →
      ∃ st', ((reduceLoop fuel st = .rejected st' ∧
                st'.steps.getLast? = some notValidNL)
            ∨ (reduceLoop fuel st = .finished st' ∧ is_atomic st'.cur = true))
        ∧ st'.trace.length + countOpen st'.cur ≤ st.trace.length + countOpen st.cur
        ∧ (∀ t ∈ st'.trace, t ∈ st.trace ∨
            (countOpen t.curAfter < countOpen t.curBefore ∧
             t.keysBefore ⊆ t.keysAfter ∧ t.compound ∈ t.keysAfter)) := by
  intro fuel st
  induction fuel, st using reduceLoop.induct with
  | case1 st =>
    intro h
    exact absurd h (Nat.not_lt_zero _)
  | case2 st fuel hat =>
    intro _
    refine ⟨st, Or.inr ⟨?_, hat⟩, le_refl _, fun t ht => Or.inl ht⟩
    simp only [reduceLoop, if_pos hat]
  | case3 st fuel hat st1 hf =>
    intro _
    refine ⟨{ st1 with steps := st1.steps ++ [errNoBasicLine, notValidNL] },
      Or.inl ⟨?_, getLast?_append_pair _ _ _⟩, le_refl _, fun t ht => Or.inl ht⟩
    simp only [reduceLoop, if_neg hat, hf]
  | case4 st fuel hat st1 s e comp hf he =>
    intro _
    refine ⟨{ st1 with steps :=
        (st1.steps ++ [foundLine comp]) ++ [errInvalidLine comp, notValidNL] },
      Or.inl ⟨?_, getLast?_append_pair _ _ _⟩, le_refl _, fun t ht => Or.inl ht⟩
    simp only [reduceLoop, if_neg hat, hf, he]
  | case5 st fuel hat st1 s e comp hf st2 op left? right he n newA stepLines subs' cur' entry ih =>
    intro hfuel
    have hf' : find_first_basic_compound st.subs st.cur = some (s, e, comp) := hf
    obtain ⟨cs', hd, hlt, hle, hsegEq⟩ := find_ok hf'
    have hcur' : countOpen cur' < countOpen st.cur :=
      countOpen_splice_lt hd hlt hle (placeholder_countOpen _)
    obtain ⟨st', hcase, hlen, htr⟩ := ih (by
      show countOpen cur' < fuel
      omega)
    refine ⟨st', ?_, ?_, ?_⟩
    · have heq : reduceLoop (fuel + 1) st = reduceLoop fuel
          { steps := st2.steps ++ stepLines.1
            revSteps := stepLines.2 :: st2.revSteps
            counter := n
            subs := subs'
            cur := cur'
            trace := st2.trace ++ [entry] } := by
        simp only [reduceLoop, if_neg hat, hf, he]
      rcases hcase with ⟨hres, hlast⟩ | ⟨hres, hatm⟩
      · exact Or.inl ⟨heq.trans hres, hlast⟩
      · exact Or.inr ⟨heq.trans hres, hatm⟩
    · have h1 : (st2.trace ++ [entry]).length = st.trace.length + 1 := by simp
      have h2 : st'.trace.length + countOpen st'.cur ≤
          (st2.trace ++ [entry]).length + countOpen cur' := hlen
      omega
    · intro t ht
      rcases htr t ht with hmem | hok
      · rcases List.mem_append.mp hmem with h1 | h1
        · exact Or.inl h1
        · rw [List.mem_singleton] at h1
          subst h1
          exact Or.inr ⟨hcur', keysOf_insert_sub _ _ _, keysOf_insert_mem _ _ _⟩
      · exact Or.inr hok

/-- The pre-loop phase composed with the loop: `runSolve` always returns,
its step lines close with an acceptance or rejection line, and its trace
entries all record strict shrink and insert-only table growth. -/
theorem runSolve_exists (f : List Char) :
    ∃ pre b tr, runSolve f = some (pre, b, tr) ∧
      (pre.getLast? = some thereforeNL ∨ b = true ∨
        pre.getLast? = some notValidNL) ∧
      (∀ t ∈ tr, countOpen t.curAfter < countOpen t.curBefore ∧
        t.keysBefore ⊆ t.keysAfter ∧ t.compound ∈ t.keysAfter) ∧
      tr.length ≤ countOpen f := by
  unfold runSolve
  by_cases h1 : is_atomic f = true
  · rw [if_pos h1]
    refine ⟨_, _, _, rfl, Or.inl (getLast?_append_pair [analyzeLine f] _ _), ?_, ?_⟩
    · intro t ht
      cases ht
    · simp
  · rw [if_neg h1]
    by_cases h2 : (f.head? = some '(' && f.getLast? = some ')'
        && is_atomic (pyInner f)) = true
    · rw [if_pos h2]
      refine ⟨_, _, _, rfl,
        Or.inr (Or.inr (getLast?_append_pair [analyzeLine f] _ _)), ?_, ?_⟩
      · intro t ht
        cases ht
      · simp
    · rw [if_neg h2]
      obtain ⟨st', hcase, hlen, htr⟩ := reduceLoop_master (f.length + 1)
        { steps := [analyzeLine f] ++ scanAtomics f [] ++ [beginSubstLine],
          revSteps := [], counter := 0, subs := [], cur := f, trace := [] }
        (by
          show countOpen f < f.length + 1
          have := countOpen_le_length f
          omega)
      have htr' : ∀ t ∈ st'.trace,
          countOpen t.curAfter < countOpen t.curBefore ∧
          t.keysBefore ⊆ t.keysAfter ∧ t.compound ∈ t.keysAfter := by
        intro t ht
        rcases htr t ht with h | h
        · cases h
        · exact h
      have hlen' : st'.trace.length ≤ countOpen f := by
        simpa using Nat.le_trans (Nat.le_add_right _ _) hlen
      rcases hcase with ⟨hres, hlast⟩ | ⟨hres, hatm⟩
      · rw [hres]
        exact ⟨st'.steps, false, st'.trace, rfl, Or.inr (Or.inr hlast), htr', hlen'⟩
      · rw [hres]
        have hv : (if is_atomic st'.cur = true then
            some (st'.steps ++ [finalResultLine st'.cur, revHeaderLine] ++ st'.revSteps
              ++ [sinceLine st'.cur], true, st'.trace)
          else some (st'.steps ++ [notValidNL], false, st'.trace)) =
            some (st'.steps ++ [finalResultLine st'.cur, revHeaderLine] ++ st'.revSteps
              ++ [sinceLine st'.cur], true, st'.trace) := by
          rw [if_pos hatm]
        exact ⟨_, true, st'.trace, hv, Or.inr (Or.inl rfl), htr', hlen'⟩

/-! ## C8: totality — every input yields a report -/

/-- C8: for every input string, `solve_formula` returns a report (the fuel
never runs out because each reduction strictly decreases the number of open
parentheses), and that report ends either in the acceptance line or in the
`Not a valid formula in P(v)` rejection line — no other way out exists. -/
theorem c8_total_report (orig : List Char) :
    ∃ steps, solveSteps orig = some steps ∧
      (steps.getLast? = some thereforeNL ∨ steps.getLast? = some thereforeLine
        ∨ steps.getLast? = some notValidNL) := by
  obtain ⟨pre, b, tr, hrun, hdisj, _, _⟩ := runSolve_exists (stripSpaces orig)
  unfold solveSteps
  rw [hrun]
  cases b with
  | false =>
    refine ⟨pre, by simp, ?_⟩
    rcases hdisj with h | h | h
    · exact Or.inl h
    · cases h
    · exact Or.inr (Or.inr h)
  | true =>
    exact ⟨pre ++ [conclLine orig, thereforeLine], by simp,
      Or.inr (Or.inl (getLast?_append_pair _ _ _))⟩

/-! ## C4: substitution-table key reuse -/

/-- C4 counterexample: on input `((¬P)∧(¬P))` the second reduction step
re-reduces the compound string `(¬P)` whose exact text is already a key of
the substitution table, refuting "no key is ever assigned twice". -/
theorem c4_counterexample :
    (solveTrace "((¬P)∧(¬P))".toList).any
      (fun t => t.keysBefore.contains t.compound) = true := by decide

/-- C4 (amended): within one solve invocation the substitution table is
insert-only — at every reduction step the key set only grows and the
reduced compound's exact string is a key afterwards — but a key may be
assigned a second time when the identical compound string is reduced
again (the old placeholder value is then overwritten). -/
theorem c4_amended (orig : List Char) (t : TraceEntry) (ht : t ∈ solveTrace orig) :
    t.keysBefore ⊆ t.keysAfter ∧ t.compound ∈ t.keysAfter := by
  obtain ⟨pre, b, tr, hrun, _, hok, _⟩ := runSolve_exists (stripSpaces orig)
  unfold solveTrace at ht
  rw [hrun] at ht
  have ht' : t ∈ tr := ht
  exact ⟨(hok t ht').2.1, (hok t ht').2.2⟩

/-- Witness for C4 (amended) at the single reduction step of `(¬P)`. -/
theorem c4_witness :
    ((⟨"(¬P)".toList, [], ["(¬P)".toList], "(¬P)".toList, "X1".toList⟩ :
        TraceEntry) ∈ solveTrace "(¬P)".toList) ∧
    ((⟨"(¬P)".toList, [], ["(¬P)".toList], "(¬P)".toList, "X1".toList⟩ :
        TraceEntry).keysBefore ⊆
      (⟨"(¬P)".toList, [], ["(¬P)".toList], "(¬P)".toList, "X1".toList⟩ :
        TraceEntry).keysAfter ∧
     (⟨"(¬P)".toList, [], ["(¬P)".toList], "(¬P)".toList, "X1".toList⟩ :
        TraceEntry).compound ∈
      (⟨"(¬P)".toList, [], ["(¬P)".toList], "(¬P)".toList, "X1".toList⟩ :
        TraceEntry).keysAfter) :=
  have hmem : (⟨"(¬P)".toList, [], ["(¬P)".toList], "(¬P)".toList,
      "X1".toList⟩ : TraceEntry) ∈ solveTrace "(¬P)".toList := by decide
  ⟨hmem, c4_amended "(¬P)".toList _ hmem⟩

/-! ## C5: monotone shrinkage and termination bound -/

/-- C5 (amended): every iteration of the reduction loop strictly decreases
the number of opening parentheses of the working string (the spliced-out
span starts with `'('` and the placeholder contains none), and hence the
number of reduction iterations is bounded by the length of the input; the
string's *length* however need not strictly decrease (see the
counterexample: from placeholder `X100` on, a 4-character span can be
replaced by a placeholder at least as long). -/
theorem c5_amended (orig : List Char) :
    (∀ t ∈ solveTrace orig, countOpen t.curAfter < countOpen t.curBefore)
    ∧ (solveTrace orig).length ≤ orig.length := by
  obtain ⟨pre, b, tr, hrun, _, hok, hlen⟩ := runSolve_exists (stripSpaces orig)
  have htrace : solveTrace orig = tr := by
    unfold solveTrace
    rw [hrun]
    rfl
  rw [htrace]
  refine ⟨fun t ht => (hok t ht).1, ?_⟩
  calc tr.length ≤ countOpen (stripSpaces orig) := hlen
    _ ≤ (stripSpaces orig).length := countOpen_le_length _
    _ ≤ orig.length := List.length_filter_le _ _

/-! ### The `(¬P)`-pumping run, analyzed symbolically: the scanner on
juxtaposed `(¬P)` copies, one reduction step, and the iterated loop. -/

/-- Dropping a block of four known characters. -/
theorem drop_add_four (n : Nat) (c1 c2 c3 c4 : Char) (l : List Char) :
    (c1 :: c2 :: c3 :: c4 :: l).drop (n + 4) = l.drop n := by
  rw [show n + 4 = n + 1 + 1 + 1 + 1 from by omega]
  rw [List.drop_succ_cons, List.drop_succ_cons, List.drop_succ_cons,
    List.drop_succ_cons]

/-- Taking past a block of four known characters. -/
theorem take_add_four (n : Nat) (c1 c2 c3 c4 : Char) (l : List Char) :
    (c1 :: c2 :: c3 :: c4 :: l).take (n + 4) = c1 :: c2 :: c3 :: c4 :: l.take n := by
  rw [show n + 4 = n + 1 + 1 + 1 + 1 from by omega]
  rw [List.take_succ_cons, List.take_succ_cons, List.take_succ_cons,
    List.take_succ_cons]

/-- Peeling the last copy off a block of `(¬P)` copies. -/
theorem pump_snoc (k : Nat) (tail : List Char) :
    (List.replicate (k + 1) "(¬P)".toList).flatten ++ tail =
      (List.replicate k "(¬P)".toList).flatten ++ ("(¬P)".toList ++ tail) := by
  rw [List.replicate_succ', List.flatten_append]
  simp [List.append_assoc]

/-- Dropping exactly the `(¬P)` copies. -/
theorem drop_pump_exact (k : Nat) : ∀ (tail : List Char),
    ((List.replicate k "(¬P)".toList).flatten ++ tail).drop (4 * k) = tail := by
  induction k with
  | zero =>
    intro tail
    simp
  | succ k ih =>
    intro tail
    rw [show (List.replicate (k + 1) "(¬P)".toList).flatten ++ tail =
        '(' :: '¬' :: 'P' :: ')' :: ((List.replicate k "(¬P)".toList).flatten ++ tail)
      from rfl]
    rw [show 4 * (k + 1) = 4 * k + 4 from by ring]
    rw [drop_add_four]
    exact ih tail

/-- Taking exactly the `(¬P)` copies. -/
theorem take_pump (k : Nat) : ∀ (tail : List Char),
    ((List.replicate k "(¬P)".toList).flatten ++ tail).take (4 * k) =
      (List.replicate k "(¬P)".toList).flatten := by
  induction k with
  | zero =>
    intro tail
    rfl
  | succ k ih =>
    intro tail
    rw [show (List.replicate (k + 1) "(¬P)".toList).flatten ++ tail =
        '(' :: '¬' :: 'P' :: ')' :: ((List.replicate k "(¬P)".toList).flatten ++ tail)
      from rfl]
    rw [show 4 * (k + 1) = 4 * k + 4 from by ring]
    rw [take_add_four, ih]
    rfl

/-- Dropping all copies but the last one. -/
theorem drop_pump (k : Nat) (tail : List Char) :
    ((List.replicate (k + 1) "(¬P)".toList).flatten ++ tail).drop (4 * k) =
      "(¬P)".toList ++ tail := by
  rw [pump_snoc, drop_pump_exact]

/-- The characters of the placeholder residue: never a parenthesis. -/
theorem phTail_no_paren (m : Nat) : ∀ c ∈ phTail m, ¬(c = '(') := by
  induction m with
  | zero =>
    intro c hc
    cases hc
  | succ m ih =>
    intro c hc
    rw [show phTail (m + 1) = placeholder (m + 1) ++ phTail m from rfl] at hc
    rcases List.mem_append.mp hc with h | h
    · rcases List.mem_cons.mp h with rfl | h'
      · decide
      · have hd : c.isDigit = true :=
          natDigitsCore_digits (m + 1 + 1) (m + 1) [] (by intro d hd; cases hd) c h'
        intro hcc
        rw [hcc] at hd
        exact absurd hd (by decide)
    · exact ih c h

/-- The placeholder residue has no opening parenthesis. -/
theorem phTail_countOpen (m : Nat) : countOpen (phTail m) = 0 := by
  induction m with
  | zero => rfl
  | succ m ih =>
    rw [show phTail (m + 1) = placeholder (m + 1) ++ phTail m from rfl,
      countOpen_append, placeholder_countOpen, ih]

/-- A string starting with an opening parenthesis is never atomic. -/
theorem is_atomic_cons_paren (t : List Char) : is_atomic ('(' :: t) = false := by
  cases t with
  | nil => decide
  | cons a as =>
    show ('('.isAlpha && (a :: as).all Char.isDigit) = false
    rw [show '('.isAlpha = false from by decide]
    rfl

/-- The scanner of `find_first_basic_compound` never updates its record
while crossing characters other than `'('`. -/
theorem ffbcAux_no_open (subs : Subst) : ∀ (l : List Char) (i : Nat) (lvl ml : Int)
    (best : Option (Nat × Nat)), (∀ c ∈ l, ¬(c = '(')) →
    ffbcAux subs l i lvl ml best = best := by
  intro l
  induction l with
  | nil =>
    intro i lvl ml best _
    rfl
  | cons c cs ih =>
    intro i lvl ml best h
    have h1 : ¬(c = '(') := h c (List.mem_cons_self c cs)
    have h' : ∀ x ∈ cs, ¬(x = '(') := fun x hx => h x (List.mem_cons_of_mem c hx)
    simp only [ffbcAux]
    rw [if_neg h1]
    by_cases h2 : c = ')'
    · rw [if_pos h2]
      exact ih (i + 1) (lvl - 1) ml best h'
    · rw [if_neg h2]
      exact ih (i + 1) lvl ml best h'

/-- The span `(¬P)` is a basic compound whatever the substitution table:
its inner content starts with `¬` followed by the atomic `P`. -/
theorem is_basic_pumpA (subs : Subst) : is_basic_compound subs "(¬P)".toList = true :=
  rfl

/-- One `(¬P)` copy moves the scanner four characters forward, recording
the copy just passed (`current_level` 1 meets `max_level ≤ 1`, and the
candidate passes `is_basic_compound`). -/
theorem ffbcAux_pump_step (subs : Subst) (rest : List Char) (i : Nat) (ml : Int)
    (best : Option (Nat × Nat)) (hml : ml ≤ 1) :
    ffbcAux subs ("(¬P)".toList ++ rest) i 0 ml best =
      ffbcAux subs rest (i + 4) 0 1 (some (i, i + 4)) := by
  have e1 : ffbcAux subs ('(' :: '¬' :: 'P' :: ')' :: rest) i 0 ml best =
      (if (0 : Int) + 1 ≥ ml then
        (if is_basic_compound subs
            (('(' :: '¬' :: 'P' :: ')' :: rest).take (i + 3 + 1 - i)) = true then
          ffbcAux subs ('¬' :: 'P' :: ')' :: rest) (i + 1) ((0 : Int) + 1)
            ((0 : Int) + 1) (some (i, i + 3 + 1))
        else ffbcAux subs ('¬' :: 'P' :: ')' :: rest) (i + 1) ((0 : Int) + 1) ml best)
      else ffbcAux subs ('¬' :: 'P' :: ')' :: rest) (i + 1) ((0 : Int) + 1) ml best) :=
    rfl
  show ffbcAux subs ('(' :: '¬' :: 'P' :: ')' :: rest) i 0 ml best =
    ffbcAux subs rest (i + 4) 0 1 (some (i, i + 4))
  rw [e1]
  rw [if_pos (show (0 : Int) + 1 ≥ ml from by omega)]
  rw [show i + 3 + 1 - i = 4 from by omega]
  rw [show ('(' :: '¬' :: 'P' :: ')' :: rest).take 4 = "(¬P)".toList from rfl]
  rw [if_pos (is_basic_pumpA subs)]
  rw [show i + 3 + 1 = i + 4 from by omega]
  have e2 : ffbcAux subs ('¬' :: 'P' :: ')' :: rest) (i + 1) ((0 : Int) + 1)
      ((0 : Int) + 1) (some (i, i + 4)) =
      ffbcAux subs rest (i + 4) 0 1 (some (i, i + 4)) := rfl
  rw [e2]

/-- Scanning `k + 1` copies of `(¬P)` followed by an open-parenthesis-free
tail records the LAST copy: all copies sit at the same depth 1, and the
`>=` comparison lets each later copy overwrite the record. -/
theorem ffbcAux_pump (subs : Subst) : ∀ (k : Nat) (tail : List Char) (i : Nat)
    (best : Option (Nat × Nat)) (ml : Int), ml ≤ 1 → (∀ c ∈ tail, ¬(c = '(')) →
    ffbcAux subs ((List.replicate (k + 1) "(¬P)".toList).flatten ++ tail) i 0 ml best =
      some (i + 4 * k, i + 4 * k + 4) := by
  intro k
  induction k with
  | zero =>
    intro tail i best ml hml htail
    rw [show (List.replicate (0 + 1) "(¬P)".toList).flatten ++ tail =
        "(¬P)".toList ++ tail from rfl]
    rw [ffbcAux_pump_step subs tail i ml best hml]
    rw [ffbcAux_no_open subs tail (i + 4) 0 1 (some (i, i + 4)) htail]
    rw [show i + 4 * 0 = i from by omega]
  | succ k ih =>
    intro tail i best ml hml htail
    rw [show (List.replicate (k + 1 + 1) "(¬P)".toList).flatten ++ tail =
        "(¬P)".toList ++ ((List.replicate (k + 1) "(¬P)".toList).flatten ++ tail)
      from rfl]
    rw [ffbcAux_pump_step subs _ i ml best hml]
    rw [ih tail (i + 4) (some (i, i + 4)) 1 (le_refl 1) htail]
    rw [show i + 4 + 4 * k = i + 4 * (k + 1) from by ring]

/-- `find_first_basic_compound` on `k + 1` copies of `(¬P)` followed by
placeholder residue returns the span of the last copy. -/
theorem find_pump (subs : Subst) (k : Nat) (tail : List Char)
    (htail : ∀ c ∈ tail, ¬(c = '(')) :
    find_first_basic_compound subs
      ((List.replicate (k + 1) "(¬P)".toList).flatten ++ tail) =
      some (4 * k, 4 * k + 4, "(¬P)".toList) := by
  unfold find_first_basic_compound
  have h := ffbcAux_pump subs k tail 0 none 0 (by norm_num) htail
  rw [show (0 : Nat) + 4 * k = 4 * k from by omega] at h
  rw [h]
  show some (4 * k, 4 * k + 4,
      seg ((List.replicate (k + 1) "(¬P)".toList).flatten ++ tail) (4 * k) (4 * k + 4)) =
    some (4 * k, 4 * k + 4, "(¬P)".toList)
  rw [show seg ((List.replicate (k + 1) "(¬P)".toList).flatten ++ tail)
      (4 * k) (4 * k + 4) =
      (((List.replicate (k + 1) "(¬P)".toList).flatten ++ tail).drop (4 * k)).take
        (4 * k + 4 - 4 * k) from rfl]
  rw [drop_pump, show 4 * k + 4 - 4 * k = 4 from by omega]
  rw [show ("(¬P)".toList ++ tail).take 4 = "(¬P)".toList from rfl]

/-- Splicing the placeholder over the last copy turns `k + 1` copies plus
residue into `k` copies plus the grown residue. -/
theorem pump_splice (k m : Nat) (cur : List Char)
    (hcur : cur = (List.replicate (k + 1) "(¬P)".toList).flatten ++ phTail m) :
    cur.take (4 * k) ++ placeholder (m + 1) ++ cur.drop (4 * k + 4) =
      (List.replicate k "(¬P)".toList).flatten ++ phTail (m + 1) := by
  subst hcur
  rw [pump_snoc, take_pump]
  rw [← List.drop_drop, drop_pump_exact]
  rw [show ("(¬P)".toList ++ phTail m).drop 4 = phTail m from rfl]
  rw [show phTail (m + 1) = placeholder (m + 1) ++ phTail m from rfl]
  simp [List.append_assoc]

/-- The loop only appends to the ghost trace: whatever state the loop
stops in extends the entry list it started with. -/
theorem reduceLoop_trace_prefix :
    ∀ (fuel : Nat) (st : SolveSt) (stOut : SolveSt),
      (reduceLoop fuel st = .outOfFuel stOut ∨ reduceLoop fuel st = .rejected stOut ∨
        reduceLoop fuel st = .finished stOut) →
      ∃ ext, stOut.trace = st.trace ++ ext := by
  intro fuel st
  induction fuel, st using reduceLoop.induct with
  | case1 st =>
    intro stOut hd
    rcases hd with h | h | h
    · have h' : LoopOut.outOfFuel st = LoopOut.outOfFuel stOut := h
      injection h' with h''
      exact ⟨[], by rw [← h'']; simp⟩
    · have h' : LoopOut.outOfFuel st = LoopOut.rejected stOut := h
      cases h'
    · have h' : LoopOut.outOfFuel st = LoopOut.finished stOut := h
      cases h'
  | case2 st fuel hat =>
    intro stOut hd
    have heq : reduceLoop (fuel + 1) st = LoopOut.finished st := by
      simp only [reduceLoop, if_pos hat]
    rw [heq] at hd
    rcases hd with h | h | h
    · cases h
    · cases h
    · injection h with h''
      exact ⟨[], by rw [← h'']; simp⟩
  | case3 st fuel hat st1 hf =>
    intro stOut hd
    have heq : reduceLoop (fuel + 1) st =
        LoopOut.rejected { st1 with steps := st1.steps ++ [errNoBasicLine, notValidNL] } := by
      simp only [reduceLoop, if_neg hat, hf]
    rw [heq] at hd
    rcases hd with h | h | h
    · cases h
    · injection h with h''
      refine ⟨[], ?_⟩
      rw [← h'']
      show st.trace = st.trace ++ []
      simp
    · cases h
  | case4 st fuel hat st1 s e comp hf he =>
    intro stOut hd
    have heq : reduceLoop (fuel + 1) st = LoopOut.rejected { st1 with steps :=
        (st1.steps ++ [foundLine comp]) ++ [errInvalidLine comp, notValidNL] } := by
      simp only [reduceLoop, if_neg hat, hf, he]
    rw [heq] at hd
    rcases hd with h | h | h
    · cases h
    · injection h with h''
      refine ⟨[], ?_⟩
      rw [← h'']
      show st.trace = st.trace ++ []
      simp
    · cases h
  | case5 st fuel hat st1 s e comp hf st2 op left? right he n newA stepLines subs' cur' entry ih =>
    intro stOut hd
    have heq : reduceLoop (fuel + 1) st = reduceLoop fuel
        { steps := st2.steps ++ stepLines.1
          revSteps := stepLines.2 :: st2.revSteps
          counter := n
          subs := subs'
          cur := cur'
          trace := st2.trace ++ [entry] } := by
      simp only [reduceLoop, if_neg hat, hf, he]
    rw [heq] at hd
    obtain ⟨ext, hext⟩ := ih stOut hd
    have hext' : stOut.trace = (st.trace ++ [entry]) ++ ext := hext
    refine ⟨[entry] ++ ext, ?_⟩
    rw [hext', List.append_assoc]

/-- One iteration of the reduction loop on `k + 1` copies of `(¬P)` plus
placeholder residue: the rightmost copy is found, validated as a negation
compound, and replaced by the next placeholder. -/
theorem reduceLoop_pump_step (fuel : Nat) (st : SolveSt) (k : Nat)
    (hcur : st.cur = (List.replicate (k + 1) "(¬P)".toList).flatten ++
      phTail st.counter) :
    reduceLoop (fuel + 1) st = reduceLoop fuel
      { steps := ((st.steps ++ [curFormulaLine st.cur]) ++ [foundLine "(¬P)".toList]) ++
          [negFactLine '¬' ['P'], negDefLine '¬' ['P'] (placeholder (st.counter + 1))],
        revSteps := negRevLine '¬' ['P'] (placeholder (st.counter + 1)) :: st.revSteps,
        counter := st.counter + 1,
        subs := insertSubst st.subs "(¬P)".toList (placeholder (st.counter + 1)),
        cur := (List.replicate k "(¬P)".toList).flatten ++ phTail (st.counter + 1),
        trace := st.trace ++ [⟨"(¬P)".toList, keysOf st.subs,
          keysOf (insertSubst st.subs "(¬P)".toList (placeholder (st.counter + 1))),
          st.cur,
          (List.replicate k "(¬P)".toList).flatten ++ phTail (st.counter + 1)⟩] } := by
  have hna : is_atomic st.cur = false := by
    rw [hcur]
    rw [show (List.replicate (k + 1) "(¬P)".toList).flatten ++ phTail st.counter =
        '(' :: ('¬' :: 'P' :: ')' ::
          ((List.replicate k "(¬P)".toList).flatten ++ phTail st.counter)) from rfl]
    exact is_atomic_cons_paren _
  have hna' : ¬(is_atomic st.cur = true) := by
    rw [hna]
    decide
  have hfind : find_first_basic_compound st.subs st.cur =
      some (4 * k, 4 * k + 4, "(¬P)".toList) := by
    rw [hcur]
    exact find_pump st.subs k (phTail st.counter) (phTail_no_paren st.counter)
  have hex : extract_components "(¬P)".toList = some ('¬', none, ['P']) := rfl
  have hsp : st.cur.take (4 * k) ++ placeholder (st.counter + 1) ++
      st.cur.drop (4 * k + 4) =
      (List.replicate k "(¬P)".toList).flatten ++ phTail (st.counter + 1) :=
    pump_splice k st.counter st.cur hcur
  simp only [reduceLoop, if_neg hna', hfind, hex, hsp]
  rfl

/-- Existential form of the pump step, exposing only the next state's
invariant fields and the ghost entry it appends. -/
theorem reduceLoop_pump_step_ex (fuel : Nat) (st : SolveSt) (k : Nat)
    (hcur : st.cur = (List.replicate (k + 1) "(¬P)".toList).flatten ++
      phTail st.counter) :
    ∃ st2 : SolveSt,
      reduceLoop (fuel + 1) st = reduceLoop fuel st2 ∧
      st2.cur = (List.replicate k "(¬P)".toList).flatten ++ phTail st2.counter ∧
      st2.counter = st.counter + 1 ∧
      st2.trace = st.trace ++ [⟨"(¬P)".toList, keysOf st.subs,
        keysOf (insertSubst st.subs "(¬P)".toList (placeholder (st.counter + 1))),
        st.cur,
        (List.replicate k "(¬P)".toList).flatten ++ phTail (st.counter + 1)⟩] :=
  ⟨_, reduceLoop_pump_step fuel st k hcur, rfl, rfl, rfl⟩

/-- `n` iterations of the loop on the pumping family: `n` copies get
reduced, the counter advances by `n`, and the trace only grows. -/
theorem reduceLoop_pump_iter :
    ∀ (n k fuel : Nat) (st : SolveSt),
      st.cur = (List.replicate k "(¬P)".toList).flatten ++ phTail st.counter →
      n ≤ k →
      ∃ st' : SolveSt,
        reduceLoop (fuel + n) st = reduceLoop fuel st' ∧
        st'.cur = (List.replicate (k - n) "(¬P)".toList).flatten ++
          phTail st'.counter ∧
        st'.counter = st.counter + n ∧
        ∃ ext, st'.trace = st.trace ++ ext := by
  intro n
  induction n with
  | zero =>
    intro k fuel st hcur _
    refine ⟨st, rfl, ?_, rfl, [], by simp⟩
    rw [show k - 0 = k from rfl]
    exact hcur
  | succ n ih =>
    intro k fuel st hcur hle
    have hc1 : st.cur = (List.replicate (k - 1 + 1) "(¬P)".toList).flatten ++
        phTail st.counter := by
      rw [show k - 1 + 1 = k from by omega]
      exact hcur
    obtain ⟨st2, hst2, hcur2, hcnt2, htr2⟩ :=
      reduceLoop_pump_step_ex (fuel + n) st (k - 1) hc1
    obtain ⟨st', h1, h2, h3, ext, h4⟩ := ih (k - 1) fuel st2 hcur2 (by omega)
    refine ⟨st', ?_, ?_, ?_, ?_⟩
    · rw [show fuel + (n + 1) = fuel + n + 1 from by omega, hst2]
      exact h1
    · rw [show k - (n + 1) = k - 1 - n from by omega]
      exact h2
    · rw [h3, hcnt2]
      omega
    · exact ⟨[⟨"(¬P)".toList, keysOf st.subs,
        keysOf (insertSubst st.subs "(¬P)".toList (placeholder (st.counter + 1))),
        st.cur,
        (List.replicate (k - 1) "(¬P)".toList).flatten ++ phTail (st.counter + 1)⟩] ++ ext,
        by rw [h4, htr2, List.append_assoc]⟩

/-- A single failing element refutes `List.all`. -/
theorem all_eq_false_of_mem {α : Type} {l : List α} {p : α → Bool} {a : α}
    (ha : a ∈ l) (hp : p a = false) : l.all p = false := by
  by_contra h
  rw [Bool.not_eq_false, List.all_eq_true] at h
  have h2 := h a ha
  rw [hp] at h2
  exact Bool.noConfusion h2

/-- C5 counterexample: on one hundred concatenated copies of `(¬P)` the
hundredth reduction replaces the 4-character span `(¬P)` by the
4-character placeholder `X100`, so the working string is *not* strictly
shorter at that iteration — refuting the claim's strict length decrease. -/
theorem c5_counterexample :
    (solveTrace ((List.replicate 100 "(¬P)".toList).flatten)).all
      (fun t => decide (t.curAfter.length < t.curBefore.length)) = false := by
  have hstrip : stripSpaces ((List.replicate 100 "(¬P)".toList).flatten) =
      (List.replicate 100 "(¬P)".toList).flatten := by decide
  have h1 : ¬(is_atomic ((List.replicate 100 "(¬P)".toList).flatten) = true) := by
    decide
  have h2 : ¬((((List.replicate 100 "(¬P)".toList).flatten).head? = some '(' &&
      ((List.replicate 100 "(¬P)".toList).flatten).getLast? = some ')' &&
      is_atomic (pyInner ((List.replicate 100 "(¬P)".toList).flatten))) = true) := by
    decide
  obtain ⟨st99, hrl99, hcur99x, hcnt99x, -⟩ :=
    reduceLoop_pump_iter 99 100 302
      { steps := [analyzeLine ((List.replicate 100 "(¬P)".toList).flatten)] ++
          scanAtomics ((List.replicate 100 "(¬P)".toList).flatten) [] ++ [beginSubstLine],
        revSteps := [], counter := 0, subs := [],
        cur := (List.replicate 100 "(¬P)".toList).flatten, trace := [] }
      (by simp [phTail]) (by omega)
  have hcur99 : st99.cur =
      (List.replicate 1 "(¬P)".toList).flatten ++ phTail st99.counter := hcur99x
  have hcnt99 : st99.counter = 99 := hcnt99x
  obtain ⟨st100, hst100, hcur100, hcnt100, htr100⟩ :=
    reduceLoop_pump_step_ex 301 st99 0 hcur99
  have hopen : countOpen st100.cur = 0 := by
    rw [hcur100, countOpen_append, phTail_countOpen,
      show countOpen ((List.replicate 0 "(¬P)".toList).flatten) = 0 from rfl]
  obtain ⟨stf, hcase, -, -⟩ := reduceLoop_master 301 st100 (by rw [hopen]; omega)
  have hmemE : (⟨"(¬P)".toList, keysOf st99.subs,
      keysOf (insertSubst st99.subs "(¬P)".toList (placeholder (st99.counter + 1))),
      st99.cur,
      (List.replicate 0 "(¬P)".toList).flatten ++ phTail (st99.counter + 1)⟩ :
      TraceEntry) ∈ stf.trace := by
    have hdisj : reduceLoop 301 st100 = LoopOut.outOfFuel stf ∨
        reduceLoop 301 st100 = LoopOut.rejected stf ∨
        reduceLoop 301 st100 = LoopOut.finished stf := by
      rcases hcase with ⟨hres, -⟩ | ⟨hres, -⟩
      · exact Or.inr (Or.inl hres)
      · exact Or.inr (Or.inr hres)
    obtain ⟨ext, hext⟩ := reduceLoop_trace_prefix 301 st100 stf hdisj
    rw [hext, htr100]
    refine List.mem_append_left _ (List.mem_append_right _ ?_)
    exact List.mem_singleton.mpr rfl
  have hrs : ∃ S B, runSolve ((List.replicate 100 "(¬P)".toList).flatten) =
      some (S, B, stf.trace) := by
    simp only [runSolve]
    rw [if_neg h1, if_neg h2,
      show ((List.replicate 100 "(¬P)".toList).flatten).length = 400 from by decide,
      show (400 + 1 : Nat) = 302 + 99 from by norm_num, hrl99,
      show (302 : Nat) = 301 + 1 from by norm_num, hst100]
    rcases hcase with ⟨hres, -⟩ | ⟨hres, hatm⟩
    · rw [hres]
      exact ⟨stf.steps, false, rfl⟩
    · rw [hres]
      refine ⟨stf.steps ++ [finalResultLine stf.cur, revHeaderLine] ++ stf.revSteps
        ++ [sinceLine stf.cur], true, ?_⟩
      show (if is_atomic stf.cur = true then
          some (stf.steps ++ [finalResultLine stf.cur, revHeaderLine] ++ stf.revSteps
            ++ [sinceLine stf.cur], true, stf.trace)
        else some (stf.steps ++ [notValidNL], false, stf.trace)) =
        some (stf.steps ++ [finalResultLine stf.cur, revHeaderLine] ++ stf.revSteps
          ++ [sinceLine stf.cur], true, stf.trace)
      rw [if_pos hatm]
  obtain ⟨S, B, hrs⟩ := hrs
  have htrace : solveTrace ((List.replicate 100 "(¬P)".toList).flatten) = stf.trace := by
    simp only [solveTrace]
    rw [hstrip, hrs]
    rfl
  have hlenE : ((List.replicate 0 "(¬P)".toList).flatten ++
      phTail (st99.counter + 1)).length = st99.cur.length := by
    rw [hcur99, hcnt99,
      show phTail (99 + 1) = placeholder 100 ++ phTail 99 from rfl]
    simp only [List.length_append]
    rw [show ((List.replicate 0 "(¬P)".toList).flatten).length = 0 from rfl,
      show ((List.replicate 1 "(¬P)".toList).flatten).length = 4 from rfl,
      show (placeholder 100).length = 4 from by decide]
    omega
  rw [htrace]
  refine all_eq_false_of_mem hmemE ?_
  show decide ((((List.replicate 0 "(¬P)".toList).flatten ++
      phTail (st99.counter + 1))).length < st99.cur.length) = false
  rw [hlenE]
  exact decide_eq_false (Nat.lt_irrefl _)

/-- Witness for C5 (amended) at the single reduction step of `(¬P)`. -/
theorem c5_witness :
    ((⟨"(¬P)".toList, [], ["(¬P)".toList], "(¬P)".toList, "X1".toList⟩ :
        TraceEntry) ∈ solveTrace "(¬P)".toList) ∧
    countOpen (⟨"(¬P)".toList, [], ["(¬P)".toList], "(¬P)".toList,
        "X1".toList⟩ : TraceEntry).curAfter <
      countOpen (⟨"(¬P)".toList, [], ["(¬P)".toList], "(¬P)".toList,
        "X1".toList⟩ : TraceEntry).curBefore ∧
    (solveTrace "(¬P)".toList).length ≤ "(¬P)".toList.length :=
  have hmem : (⟨"(¬P)".toList, [], ["(¬P)".toList], "(¬P)".toList,
      "X1".toList⟩ : TraceEntry) ∈ solveTrace "(¬P)".toList := by decide
  ⟨hmem, (c5_amended "(¬P)".toList).1 _ hmem, (c5_amended "(¬P)".toList).2⟩

/-! ## C2: the scanner's deepest-then-rightmost selection policy -/

theorem bal_append (a b : List Char) : bal (a ++ b) = bal a + bal b := by
  induction a with
  | nil => simp [bal]
  | cons c cs ih =>
    have h1 : bal ((c :: cs) ++ b) = balDelta c + bal (cs ++ b) := rfl
    have h2 : bal (c :: cs) = balDelta c + bal cs := rfl
    rw [h1, h2, ih]
    omega

/-- Extending a `take` by the character known to sit at index `i`. -/
theorem take_succ_of_drop_cons {f : List Char} {i : Nat} {c : Char} {cs : List Char}
    (h : f.drop i = c :: cs) : f.take (i + 1) = f.take i ++ [c] := by
  induction f generalizing i with
  | nil => rw [List.drop_nil] at h; cases h
  | cons x xs ih =>
    cases i with
    | zero =>
      rw [List.drop_zero] at h
      injection h with h1 _
      subst h1
      simp
    | succ i' =>
      have h' : xs.drop i' = c :: cs := h
      rw [List.take_succ_cons, List.take_succ_cons, ih h', List.cons_append]

theorem cand_lt_length {subs : Subst} {f : List Char} {j : Nat}
    (h : candB subs f j = true) : j < f.length := by
  unfold candB at h
  simp only [Bool.and_eq_true, beq_iff_eq] at h
  cases hd : f.drop j with
  | nil => rw [hd] at h; simp at h
  | cons c cs => exact drop_cons_lt_length hd

theorem cand_depth_nonneg {subs : Subst} {f : List Char} {j : Nat}
    (h : candB subs f j = true) : 0 ≤ depthAt f j := by
  unfold candB at h
  simp only [Bool.and_eq_true, decide_eq_true_eq] at h
  exact h.2

/-- A position that is no candidate extends the scanner invariant without
change. -/
theorem ScanInv_extend_notcand {subs : Subst} {f : List Char} {i : Nat}
    {ml : Int} {best : Option (Nat × Nat)} (hinv : ScanInv subs f i ml best)
    (hcand : candB subs f i = false) : ScanInv subs f (i + 1) ml best := by
  obtain ⟨hml, hrest⟩ := hinv
  refine ⟨hml, ?_⟩
  cases best with
  | none =>
    obtain ⟨h0, hnone⟩ := hrest
    refine ⟨h0, fun j hj => ?_⟩
    rcases (by omega : j < i ∨ j = i) with h | h
    · exact hnone j h
    · subst h; exact hcand
  | some p =>
    obtain ⟨s, e⟩ := p
    obtain ⟨hc, hsi, hdep, hpe, hb, hr⟩ := hrest
    refine ⟨hc, by omega, hdep, hpe, ?_, ?_⟩
    · intro j hj hcj
      rcases (by omega : j < i ∨ j = i) with h | h
      · exact hb j h hcj
      · subst h; rw [hcand] at hcj; cases hcj
    · intro j hj hcj hdj
      rcases (by omega : j < i ∨ j = i) with h | h
      · exact hr j h hcj hdj
      · subst h; rw [hcand] at hcj; cases hcj

/-- A position whose depth is below the recorded maximum extends the
invariant without change, candidate or not. -/
theorem ScanInv_extend_lowdepth {subs : Subst} {f : List Char} {i : Nat}
    {ml : Int} {best : Option (Nat × Nat)} (hinv : ScanInv subs f i ml best)
    (hd : depthAt f i < ml) : ScanInv subs f (i + 1) ml best := by
  by_cases hcand : candB subs f i = true
  · obtain ⟨hml, hrest⟩ := hinv
    refine ⟨hml, ?_⟩
    cases best with
    | none =>
      obtain ⟨h0, _⟩ := hrest
      exact absurd (cand_depth_nonneg hcand) (by omega)
    | some p =>
      obtain ⟨s, e⟩ := p
      obtain ⟨hc, hsi, hdep, hpe, hb, hr⟩ := hrest
      refine ⟨hc, by omega, hdep, hpe, ?_, ?_⟩
      · intro j hj hcj
        rcases (by omega : j < i ∨ j = i) with h | h
        · exact hb j h hcj
        · subst h; omega
      · intro j hj hcj hdj
        rcases (by omega : j < i ∨ j = i) with h | h
        · exact hr j h hcj hdj
        · subst h; omega
  · exact ScanInv_extend_notcand hinv (Bool.not_eq_true _ ▸ hcand)

/-- The scanner of `find_first_basic_compound` maintains `ScanInv`: at the
end of the string, `best` is the rightmost candidate of maximal depth. -/
theorem ffbcAux_argmax (subs : Subst) (f : List Char) :
    ∀ (cs : List Char) (i : Nat) (lvl ml : Int) (best : Option (Nat × Nat)),
      cs = f.drop i → lvl = bal (f.take i) → ScanInv subs f i ml best →
      ∃ ml', ScanInv subs f f.length ml' (ffbcAux subs cs i lvl ml best) := by
  intro cs
  induction cs with
  | nil =>
    intro i lvl ml best hdrop _ hinv
    have hlen : f.length ≤ i := by
      by_contra h'
      push_neg at h'
      have : f.drop i ≠ [] := by
        intro hcon
        rw [List.drop_eq_nil_iff] at hcon
        omega
      exact this hdrop.symm
    obtain ⟨hml, hrest⟩ := hinv
    refine ⟨ml, hml, ?_⟩
    cases best with
    | none =>
      obtain ⟨h0, hnone⟩ := hrest
      exact ⟨h0, fun j hj => hnone j (by omega)⟩
    | some p =>
      obtain ⟨s, e⟩ := p
      obtain ⟨hc, _, hdep, hpe, hb, hr⟩ := hrest
      exact ⟨hc, cand_lt_length hc, hdep, hpe,
        fun j hj hcj => hb j (by omega) hcj,
        fun j hj hcj hdj => hr j (by omega) hcj hdj⟩
  | cons c cs' ih =>
    intro i lvl ml best hdrop hlvl hinv
    have hdrop' : f.drop (i + 1) = cs' := drop_succ_of_drop_cons hdrop.symm
    have htake : f.take (i + 1) = f.take i ++ [c] := take_succ_of_drop_cons hdrop.symm
    have hbal : bal (f.take (i + 1)) = bal (f.take i) + balDelta c := by
      rw [htake, bal_append]
      simp [bal]
    have hhead : (f.drop i).head? = some c := by rw [← hdrop]; rfl
    by_cases h1 : c = '('
    · subst h1
      have hdepth : depthAt f i = lvl + 1 := by rw [depthAt, ← hlvl]
      have hlvl' : lvl + 1 = bal (f.take (i + 1)) := by
        rw [hbal, ← hlvl]
        simp [balDelta]
      have hres : ffbcAux subs ('(' :: cs') i lvl ml best =
          (if lvl + 1 ≥ ml then
            match fseAux cs' (i + 1) 1 with
            | some pe =>
              if is_basic_compound subs (('(' :: cs').take (pe + 1 - i)) then
                ffbcAux subs cs' (i + 1) (lvl + 1) (lvl + 1) (some (i, pe + 1))
              else ffbcAux subs cs' (i + 1) (lvl + 1) ml best
            | none => ffbcAux subs cs' (i + 1) (lvl + 1) ml best
          else ffbcAux subs cs' (i + 1) (lvl + 1) ml best) := by
        simp only [ffbcAux, if_true]
      by_cases h2 : lvl + 1 ≥ ml
      · cases hf : fseAux cs' (i + 1) 1 with
        | none =>
          have hval : ffbcAux subs ('(' :: cs') i lvl ml best =
              ffbcAux subs cs' (i + 1) (lvl + 1) ml best := by
            rw [hres, if_pos h2, hf]
          rw [hval]
          have hfse : find_subformula_end f i = none := by
            rw [← ffbcAux_tail_fse f i '(' cs' hdrop.symm, hf]
          have hcand : candB subs f i = false := by
            unfold candB
            rw [hfse]
            simp
          exact ih (i + 1) (lvl + 1) ml best hdrop'.symm hlvl'
            (ScanInv_extend_notcand hinv hcand)
        | some pe =>
          have hfse : find_subformula_end f i = some pe := by
            rw [← ffbcAux_tail_fse f i '(' cs' hdrop.symm, hf]
          have hseg : ('(' :: cs').take (pe + 1 - i) = seg f i (pe + 1) :=
            ffbcAux_tail_seg f i pe '(' cs' hdrop.symm
          by_cases h3 : is_basic_compound subs (('(' :: cs').take (pe + 1 - i)) = true
          · have hval : ffbcAux subs ('(' :: cs') i lvl ml best =
                ffbcAux subs cs' (i + 1) (lvl + 1) (lvl + 1) (some (i, pe + 1)) := by
              rw [hres, if_pos h2, hf]
              exact if_pos h3
            rw [hval]
            obtain ⟨hml, hrest⟩ := hinv
            have hcand : candB subs f i = true := by
              unfold candB
              rw [hfse]
              simp only [Bool.and_eq_true, beq_iff_eq, decide_eq_true_eq]
              rw [← hseg]
              exact ⟨⟨hhead, h3⟩, by omega⟩
            refine ih (i + 1) (lvl + 1) (lvl + 1) (some (i, pe + 1)) hdrop'.symm
              hlvl' ?_
            refine ⟨by omega, hcand, by omega, hdepth, ⟨pe, hfse, rfl⟩, ?_, ?_⟩
            · intro j hj hcj
              rcases (by omega : j < i ∨ j = i) with h | h
              · cases best with
                | none => rw [hrest.2 j h] at hcj; cases hcj
                | some p =>
                  obtain ⟨s, e⟩ := p
                  have := hrest.2.2.2.2.1 j h hcj
                  omega
              · subst h; omega
            · intro j hj _ _
              omega
          · have hval : ffbcAux subs ('(' :: cs') i lvl ml best =
                ffbcAux subs cs' (i + 1) (lvl + 1) ml best := by
              rw [hres, if_pos h2, hf]
              exact if_neg h3
            rw [hval]
            have hcand : candB subs f i = false := by
              have h3' : is_basic_compound subs (seg f i (pe + 1)) = false := by
                rw [← hseg]
                exact Bool.not_eq_true _ ▸ h3
              have hmid : (match find_subformula_end f i with
                  | some pe => is_basic_compound subs (seg f i (pe + 1))
                  | none => false) = false := by
                rw [hfse]
                exact h3'
              unfold candB
              rw [hmid]
              simp
            exact ih (i + 1) (lvl + 1) ml best hdrop'.symm hlvl'
              (ScanInv_extend_notcand hinv hcand)
      · have hval : ffbcAux subs ('(' :: cs') i lvl ml best =
            ffbcAux subs cs' (i + 1) (lvl + 1) ml best := by
          rw [hres, if_neg h2]
        rw [hval]
        exact ih (i + 1) (lvl + 1) ml best hdrop'.symm hlvl'
          (ScanInv_extend_lowdepth hinv (by omega))
    · have hcand : candB subs f i = false := by
        unfold candB
        rw [hhead]
        have hne : ((some c == some '(' : Bool)) = false := by
          simp only [beq_eq_false_iff_ne, ne_eq, Option.some_inj]
          exact h1
        rw [hne]
        simp
      by_cases h2 : c = ')'
      · subst h2
        have hval : ffbcAux subs (')' :: cs') i lvl ml best =
            ffbcAux subs cs' (i + 1) (lvl - 1) ml best := rfl
        rw [hval]
        have hlvl' : lvl - 1 = bal (f.take (i + 1)) := by
          rw [hbal, ← hlvl, show balDelta ')' = -1 from by decide]
          omega
        exact ih (i + 1) (lvl - 1) ml best hdrop'.symm hlvl'
          (ScanInv_extend_notcand hinv hcand)
      · have hval : ffbcAux subs (c :: cs') i lvl ml best =
            ffbcAux subs cs' (i + 1) lvl ml best := by
          simp only [ffbcAux]
          rw [if_neg h1, if_neg h2]
        rw [hval]
        have hlvl' : lvl = bal (f.take (i + 1)) := by
          rw [hbal, ← hlvl]
          simp [balDelta, h1, h2]
        exact ih (i + 1) lvl ml best hdrop'.symm hlvl'
          (ScanInv_extend_notcand hinv hcand)

/-- C2 counterexample: on `((P∧Q)∨(R∧S))` both `(P∧Q)` and `(R∧S)` are
basic compounds with their opening parentheses at the same maximal depth,
and `find_first_basic_compound` returns the *rightmost* `(R∧S)` span
(start 7), not the leftmost `(P∧Q)` span (start 1). -/
theorem c2_counterexample :
    find_first_basic_compound [] "((P∧Q)∨(R∧S))".toList =
      some (7, 12, "(R∧S)".toList) ∧
    candB [] "((P∧Q)∨(R∧S))".toList 1 = true ∧
    candB [] "((P∧Q)∨(R∧S))".toList 7 = true ∧
    depthAt "((P∧Q)∨(R∧S))".toList 1 = depthAt "((P∧Q)∨(R∧S))".toList 7 := by
  refine ⟨by decide, by decide, by decide, by decide⟩

/-- C2 (amended): the scanner prefers the deepest candidate span, and
among candidates of equal (maximal) depth it returns the **rightmost**,
not the leftmost: if `s` is a candidate position of maximal depth and is
the rightmost such, `find_first_basic_compound` returns exactly its span. -/
theorem c2_amended (subs : Subst) (f : List Char) (s : Nat)
    (hc : candB subs f s = true)
    (hmax : ∀ j, candB subs f j = true → depthAt f j ≤ depthAt f s)
    (hright : ∀ j, candB subs f j = true → depthAt f j = depthAt f s → j ≤ s) :
    ∃ pe, find_subformula_end f s = some pe ∧
      find_first_basic_compound subs f = some (s, pe + 1, seg f s (pe + 1)) := by
  obtain ⟨ml', hinv⟩ := ffbcAux_argmax subs f f 0 0 0 none
    (List.drop_zero f).symm (by simp [bal])
    ⟨le_refl 0, rfl, fun j hj => absurd hj (Nat.not_lt_zero j)⟩
  cases hres : ffbcAux subs f 0 0 0 none with
  | none =>
    rw [hres] at hinv
    obtain ⟨-, -, hnone⟩ := hinv
    rw [hnone s (cand_lt_length hc)] at hc
    cases hc
  | some p =>
    obtain ⟨s', e'⟩ := p
    rw [hres] at hinv
    obtain ⟨hml, hc', hs'len, hdep', hpe', hb', hr'⟩ := hinv
    have h1 : depthAt f s ≤ ml' := hb' s (cand_lt_length hc) hc
    have h2 : depthAt f s' ≤ depthAt f s := hmax s' hc'
    have h3 : depthAt f s = ml' := by omega
    have h4 : s ≤ s' := hr' s (cand_lt_length hc) hc h3
    have h5 : s' ≤ s := hright s' hc' (by omega)
    have hss : s' = s := by omega
    subst hss
    obtain ⟨pe, hfse, hpe1⟩ := hpe'
    subst hpe1
    refine ⟨pe, hfse, ?_⟩
    unfold find_first_basic_compound
    rw [hres]

/-- Witness for C2 (amended) on `((P∧Q)∨(R∧S))` with the rightmost
deepest candidate at start index 7. -/
theorem c2_witness :
    (candB [] "((P∧Q)∨(R∧S))".toList 7 = true) ∧
    (∃ pe, find_subformula_end "((P∧Q)∨(R∧S))".toList 7 = some pe ∧
      find_first_basic_compound [] "((P∧Q)∨(R∧S))".toList =
        some (7, pe + 1, seg "((P∧Q)∨(R∧S))".toList 7 (pe + 1))) := by
  have hlt : ∀ j, candB [] "((P∧Q)∨(R∧S))".toList j = true → j < 13 := by
    intro j hj
    have := cand_lt_length hj
    simpa using this
  have hbounded : ∀ j, j < 13 → candB [] "((P∧Q)∨(R∧S))".toList j = true →
      depthAt "((P∧Q)∨(R∧S))".toList j ≤ depthAt "((P∧Q)∨(R∧S))".toList 7 ∧
      (depthAt "((P∧Q)∨(R∧S))".toList j = depthAt "((P∧Q)∨(R∧S))".toList 7 →
        j ≤ 7) := by decide
  refine ⟨by decide, c2_amended [] "((P∧Q)∨(R∧S))".toList 7 (by decide) ?_ ?_⟩
  · intro j hj
    exact (hbounded j (hlt j hj) hj).1
  · intro j hj hd
    exact (hbounded j (hlt j hj) hj).2 hd

/-- `topOps` distributes over append, shifting the balance. -/
theorem topOps_append (a : List Char) : ∀ (b : List Char) (pc : Int),
    topOps pc (a ++ b) = topOps pc a + topOps (pc + bal a) b := by
  induction a with
  | nil =>
    intro b pc
    simp [topOps, bal]
  | cons c cs ih =>
    intro b pc
    by_cases h1 : c = '('
    · subst h1
      have e1 : topOps pc (('(' :: cs) ++ b) = topOps (pc + 1) (cs ++ b) := rfl
      have e2 : topOps pc ('(' :: cs) = topOps (pc + 1) cs := rfl
      have e3 : bal ('(' :: cs) = 1 + bal cs := by
        show balDelta '(' + bal cs = 1 + bal cs
        rw [show balDelta '(' = 1 from by decide]
      rw [e1, e2, ih, e3, show pc + 1 + bal cs = pc + (1 + bal cs) from by omega]
    · by_cases h2 : c = ')'
      · subst h2
        have e1 : topOps pc ((')' :: cs) ++ b) = topOps (pc - 1) (cs ++ b) := rfl
        have e2 : topOps pc (')' :: cs) = topOps (pc - 1) cs := rfl
        have e3 : bal (')' :: cs) = -1 + bal cs := by
          show balDelta ')' + bal cs = -1 + bal cs
          rw [show balDelta ')' = -1 from by decide]
        rw [e1, e2, ih, e3, show pc - 1 + bal cs = pc + (-1 + bal cs) from by omega]
      · have e1 : topOps pc ((c :: cs) ++ b) =
            (if pc = 0 && isOp c then 1 else 0) + topOps pc (cs ++ b) := by
          show (if c = '(' then topOps (pc + 1) (cs ++ b)
                else if c = ')' then topOps (pc - 1) (cs ++ b)
                else (if pc = 0 && isOp c then 1 else 0) + topOps pc (cs ++ b)) =
            (if pc = 0 && isOp c then 1 else 0) + topOps pc (cs ++ b)
          rw [if_neg h1, if_neg h2]
        have e2 : topOps pc (c :: cs) =
            (if pc = 0 && isOp c then 1 else 0) + topOps pc cs := by
          show (if c = '(' then topOps (pc + 1) cs
                else if c = ')' then topOps (pc - 1) cs
                else (if pc = 0 && isOp c then 1 else 0) + topOps pc cs) =
            (if pc = 0 && isOp c then 1 else 0) + topOps pc cs
          rw [if_neg h1, if_neg h2]
        have e3 : bal (c :: cs) = bal cs := by
          show balDelta c + bal cs = bal cs
          rw [show balDelta c = 0 from by simp [balDelta, h1, h2]]
          omega
        rw [e1, e2, ih, e3]
        omega

/-- After the splitting loop of `is_basic_compound` has recorded an
operator, a successful run keeps that operator, flushes `cur` plus the
rest of the input as the final part, and sees no further depth-zero
operator. -/
theorem splitAux_after_op (cs : List Char) : ∀ (pc : Int) (cur : List Char)
    (parts : List (List Char)) (op : Char) (P : List (List Char)) (o : Option Char),
    splitAux cs pc cur parts (some op) = some (P, o) →
    o = some op ∧
    P = (if cur ++ cs ≠ [] then parts ++ [cur ++ cs] else parts) ∧
    topOps pc cs = 0 := by
  induction cs with
  | nil =>
    intro pc cur parts op P o h
    have h' : ((if cur ≠ [] then parts ++ [cur] else parts), some op) = (P, o) :=
      Option.some.inj h
    rw [Prod.mk.injEq] at h'
    obtain ⟨h1, h2⟩ := h'
    subst h2
    refine ⟨rfl, ?_, rfl⟩
    rw [← h1]
    simp
  | cons c cs' ih =>
    intro pc cur parts op P o h
    by_cases h1 : c = '('
    · subst h1
      have h' : splitAux cs' (pc + 1) (cur ++ ['(']) parts (some op) = some (P, o) := h
      obtain ⟨ho, hP, ht⟩ := ih (pc + 1) (cur ++ ['(']) parts op P o h'
      refine ⟨ho, ?_, ?_⟩
      · rw [hP]
        simp only [List.append_assoc, List.singleton_append]
      · show topOps (pc + 1) cs' = 0
        exact ht
    · by_cases h2 : c = ')'
      · subst h2
        have h' : splitAux cs' (pc - 1) (cur ++ [')']) parts (some op) = some (P, o) := h
        obtain ⟨ho, hP, ht⟩ := ih (pc - 1) (cur ++ [')']) parts op P o h'
        refine ⟨ho, ?_, ?_⟩
        · rw [hP]
          simp only [List.append_assoc, List.singleton_append]
        · show topOps (pc - 1) cs' = 0
          exact ht
      · by_cases h3 : pc = 0 && isOp c
        · have e : splitAux (c :: cs') pc cur parts (some op) = none := by
            show (if c = '(' then splitAux cs' (pc + 1) (cur ++ [c]) parts (some op)
                  else if c = ')' then splitAux cs' (pc - 1) (cur ++ [c]) parts (some op)
                  else if pc = 0 && isOp c then none
                  else splitAux cs' pc (cur ++ [c]) parts (some op)) = none
            rw [if_neg h1, if_neg h2, if_pos h3]
          rw [e] at h
          exact Option.noConfusion h
        · have e : splitAux (c :: cs') pc cur parts (some op) =
              splitAux cs' pc (cur ++ [c]) parts (some op) := by
            show (if c = '(' then splitAux cs' (pc + 1) (cur ++ [c]) parts (some op)
                  else if c = ')' then splitAux cs' (pc - 1) (cur ++ [c]) parts (some op)
                  else if pc = 0 && isOp c then none
                  else splitAux cs' pc (cur ++ [c]) parts (some op)) =
              splitAux cs' pc (cur ++ [c]) parts (some op)
            rw [if_neg h1, if_neg h2, if_neg h3]
          rw [e] at h
          obtain ⟨ho, hP, ht⟩ := ih pc (cur ++ [c]) parts op P o h
          refine ⟨ho, ?_, ?_⟩
          · rw [hP]
            simp only [List.append_assoc, List.singleton_append]
          · have e2 : topOps pc (c :: cs') =
                (if pc = 0 && isOp c then 1 else 0) + topOps pc cs' := by
              show (if c = '(' then topOps (pc + 1) cs'
                    else if c = ')' then topOps (pc - 1) cs'
                    else (if pc = 0 && isOp c then 1 else 0) + topOps pc cs') =
                (if pc = 0 && isOp c then 1 else 0) + topOps pc cs'
              rw [if_neg h1, if_neg h2]
            rw [e2, if_neg h3, ht]

/-- Full characterization of a successful run of the splitting loop of
`is_basic_compound` started with no operator recorded: either no
depth-zero operator was ever seen, or the input splits as
`pre ++ opc :: post` around the first depth-zero operator `opc`, with no
depth-zero operator in `pre` (from balance `pc`) or in `post` (from
balance 0, since `pc + bal pre = 0` there). -/
theorem splitAux_from_none (cs : List Char) : ∀ (pc : Int) (cur : List Char)
    (parts : List (List Char)) (P : List (List Char)) (o : Option Char),
    splitAux cs pc cur parts none = some (P, o) →
    (o = none ∧
      P = (if cur ++ cs ≠ [] then parts ++ [cur ++ cs] else parts) ∧
      topOps pc cs = 0) ∨
    (∃ pre opc post, cs = pre ++ opc :: post ∧ isOp opc = true ∧
      pc + bal pre = 0 ∧ topOps pc pre = 0 ∧ topOps 0 post = 0 ∧
      o = some opc ∧
      P = (if post ≠ [] then
             (if cur ++ pre ≠ [] then parts ++ [cur ++ pre] else parts) ++ [post]
           else (if cur ++ pre ≠ [] then parts ++ [cur ++ pre] else parts))) := by
  induction cs with
  | nil =>
    intro pc cur parts P o h
    have h' : ((if cur ≠ [] then parts ++ [cur] else parts), (none : Option Char)) = (P, o) :=
      Option.some.inj h
    rw [Prod.mk.injEq] at h'
    obtain ⟨h1, h2⟩ := h'
    subst h2
    left
    refine ⟨rfl, ?_, rfl⟩
    rw [← h1]
    simp
  | cons c cs' ih =>
    intro pc cur parts P o h
    by_cases h1 : c = '('
    · subst h1
      have h' : splitAux cs' (pc + 1) (cur ++ ['(']) parts none = some (P, o) := h
      rcases ih (pc + 1) (cur ++ ['(']) parts P o h' with
        ⟨ho, hP, ht⟩ | ⟨pre, opc, post, hcs, hop, hb, htp, htp0, ho, hP⟩
      · left
        refine ⟨ho, ?_, ?_⟩
        · rw [hP]
          simp only [List.append_assoc, List.singleton_append]
        · show topOps (pc + 1) cs' = 0
          exact ht
      · right
        refine ⟨'(' :: pre, opc, post, ?_, hop, ?_, ?_, htp0, ho, ?_⟩
        · rw [hcs, List.cons_append]
        · have e : bal ('(' :: pre) = 1 + bal pre := by
            show balDelta '(' + bal pre = 1 + bal pre
            rw [show balDelta '(' = 1 from by decide]
          rw [e]
          omega
        · show topOps (pc + 1) pre = 0
          exact htp
        · rw [hP]
          simp only [List.append_assoc, List.singleton_append]
    · by_cases h2 : c = ')'
      · subst h2
        have h' : splitAux cs' (pc - 1) (cur ++ [')']) parts none = some (P, o) := h
        rcases ih (pc - 1) (cur ++ [')']) parts P o h' with
          ⟨ho, hP, ht⟩ | ⟨pre, opc, post, hcs, hop, hb, htp, htp0, ho, hP⟩
        · left
          refine ⟨ho, ?_, ?_⟩
          · rw [hP]
            simp only [List.append_assoc, List.singleton_append]
          · show topOps (pc - 1) cs' = 0
            exact ht
        · right
          refine ⟨')' :: pre, opc, post, ?_, hop, ?_, ?_, htp0, ho, ?_⟩
          · rw [hcs, List.cons_append]
          · have e : bal (')' :: pre) = -1 + bal pre := by
              show balDelta ')' + bal pre = -1 + bal pre
              rw [show balDelta ')' = -1 from by decide]
            rw [e]
            omega
          · show topOps (pc - 1) pre = 0
            exact htp
          · rw [hP]
            simp only [List.append_assoc, List.singleton_append]
      · by_cases h3 : pc = 0 && isOp c
        · have e : splitAux (c :: cs') pc cur parts none =
              splitAux cs' pc [] (if cur ≠ [] then parts ++ [cur] else parts) (some c) := by
            show (if c = '(' then splitAux cs' (pc + 1) (cur ++ [c]) parts none
                  else if c = ')' then splitAux cs' (pc - 1) (cur ++ [c]) parts none
                  else if pc = 0 && isOp c then
                    splitAux cs' pc [] (if cur ≠ [] then parts ++ [cur] else parts) (some c)
                  else splitAux cs' pc (cur ++ [c]) parts none) =
              splitAux cs' pc [] (if cur ≠ [] then parts ++ [cur] else parts) (some c)
            rw [if_neg h1, if_neg h2, if_pos h3]
          rw [e] at h
          obtain ⟨ho, hP, ht⟩ :=
            splitAux_after_op cs' pc [] (if cur ≠ [] then parts ++ [cur] else parts) c P o h
          have h3' : pc = 0 ∧ isOp c = true := by
            simp only [Bool.and_eq_true, decide_eq_true_eq] at h3
            exact h3
          obtain ⟨hpc, hop⟩ := h3'
          subst hpc
          right
          refine ⟨[], c, cs', rfl, hop, by decide, rfl, ht, ho, ?_⟩
          rw [hP]
          simp only [List.nil_append, List.append_nil]
        · have e : splitAux (c :: cs') pc cur parts none =
              splitAux cs' pc (cur ++ [c]) parts none := by
            show (if c = '(' then splitAux cs' (pc + 1) (cur ++ [c]) parts none
                  else if c = ')' then splitAux cs' (pc - 1) (cur ++ [c]) parts none
                  else if pc = 0 && isOp c then
                    splitAux cs' pc [] (if cur ≠ [] then parts ++ [cur] else parts) (some c)
                  else splitAux cs' pc (cur ++ [c]) parts none) =
              splitAux cs' pc (cur ++ [c]) parts none
            rw [if_neg h1, if_neg h2, if_neg h3]
          rw [e] at h
          have e2 : topOps pc (c :: cs') =
              (if pc = 0 && isOp c then 1 else 0) + topOps pc cs' := by
            show (if c = '(' then topOps (pc + 1) cs'
                  else if c = ')' then topOps (pc - 1) cs'
                  else (if pc = 0 && isOp c then 1 else 0) + topOps pc cs') =
              (if pc = 0 && isOp c then 1 else 0) + topOps pc cs'
            rw [if_neg h1, if_neg h2]
          rcases ih pc (cur ++ [c]) parts P o h with
            ⟨ho, hP, ht⟩ | ⟨pre, opc, post, hcs, hop, hb, htp, htp0, ho, hP⟩
          · left
            refine ⟨ho, ?_, ?_⟩
            · rw [hP]
              simp only [List.append_assoc, List.singleton_append]
            · rw [e2, if_neg h3, ht]
          · right
            refine ⟨c :: pre, opc, post, ?_, hop, ?_, ?_, htp0, ho, ?_⟩
            · rw [hcs, List.cons_append]
            · have e4 : bal (c :: pre) = balDelta c + bal pre := rfl
              have e3 : balDelta c = 0 := by simp [balDelta, h1, h2]
              rw [e4, e3]
              omega
            · have e5 : topOps pc (c :: pre) =
                  (if pc = 0 && isOp c then 1 else 0) + topOps pc pre := by
                show (if c = '(' then topOps (pc + 1) pre
                      else if c = ')' then topOps (pc - 1) pre
                      else (if pc = 0 && isOp c then 1 else 0) + topOps pc pre) =
                  (if pc = 0 && isOp c then 1 else 0) + topOps pc pre
                rw [if_neg h1, if_neg h2]
              rw [e5, if_neg h3, htp]
            · rw [hP]
              simp only [List.append_assoc, List.singleton_append]

/-- An operator character is not a parenthesis. -/
theorem isOp_ne_paren {c : Char} (h : isOp c = true) : c ≠ '(' ∧ c ≠ ')' := by
  have hm := isOp_mem h
  simp only [opsList, List.mem_cons, List.not_mem_nil, or_false] at hm
  rcases hm with rfl | rfl | rfl | rfl | rfl <;> exact ⟨by decide, by decide⟩

/-- Prepending a depth-zero operator to an operator-free tail gives
exactly one depth-zero operator. -/
theorem topOps_op_cons {opc : Char} {post : List Char} (hop : isOp opc = true)
    (h0 : topOps 0 post = 0) : topOps 0 (opc :: post) = 1 := by
  obtain ⟨hne1, hne2⟩ := isOp_ne_paren hop
  have e : topOps 0 (opc :: post) =
      (if (0 : Int) = 0 && isOp opc then 1 else 0) + topOps 0 post := by
    show (if opc = '(' then topOps ((0 : Int) + 1) post
          else if opc = ')' then topOps ((0 : Int) - 1) post
          else (if (0 : Int) = 0 && isOp opc then 1 else 0) + topOps 0 post) =
      (if (0 : Int) = 0 && isOp opc then 1 else 0) + topOps 0 post
    rw [if_neg hne1, if_neg hne2]
  have hcond : ((0 : Int) = 0 && isOp opc) = true := by simp [hop]
  rw [e, if_pos hcond, h0]

/-- Counterexample to C7: with the substitution table holding the key
"(¬P)" (the state reached after the first reduction step on inputs such
as ((¬P)∧(¬P))), the span ((¬P)∧Q) passes `is_basic_compound` although
its left operand "(¬P)" is neither an atomic proposition nor a minted
placeholder (all placeholders start with the letter X). -/
theorem c7_counterexample :
    is_basic_compound [("(¬P)".toList, "X1".toList)] "((¬P)∧Q)".toList = true ∧
    is_atomic "(¬P)".toList = false ∧
    ∀ n, "(¬P)".toList ≠ placeholder n := by
  refine ⟨by decide, by decide, ?_⟩
  intro n h
  have h' : ('(' :: "¬P)".toList) = 'X' :: natDigits n := h
  injection h' with h1 _
  exact absurd h1 (by decide)

/-- C7 (amended): a wrapped span whose interior does not start with ¬
passes `is_basic_compound` only when its interior splits around exactly
one depth-zero connective occurrence into exactly two nonempty,
balanced-left operands, each of which is an atomic proposition OR the
exact string of a previously reduced compound (a key of the substitution
table) — not necessarily a minted placeholder. -/
theorem c7_amended (subs : Subst) (fm : List Char)
    (hb : is_basic_compound subs fm = true)
    (hn : ¬((pyInner fm).head? = some '¬')) :
    ∃ l opc r, pyInner fm = l ++ opc :: r ∧ isOp opc = true ∧
      l ≠ [] ∧ r ≠ [] ∧ bal l = 0 ∧ topOps 0 (pyInner fm) = 1 ∧
      (is_atomic l = true ∨ memSubst subs l = true) ∧
      (is_atomic r = true ∨ memSubst subs r = true) := by
  by_cases hw : fm.head? = some '(' && fm.getLast? = some ')'
  · cases hs : splitAux (pyInner fm) 0 [] [] none with
    | none =>
      have e : is_basic_compound subs fm = false := by
        simp only [is_basic_compound]
        rw [if_pos hw, if_neg hn, hs]
      rw [e] at hb
      exact Bool.noConfusion hb
    | some pr =>
      obtain ⟨parts, op⟩ := pr
      have e : is_basic_compound subs fm =
          (parts.length == 2 && op.isSome &&
            parts.all (fun p => is_atomic p || memSubst subs p)) := by
        simp only [is_basic_compound]
        rw [if_pos hw, if_neg hn, hs]
      rw [e] at hb
      simp only [Bool.and_eq_true, beq_iff_eq, Option.isSome_iff_exists,
        List.all_eq_true, Bool.or_eq_true] at hb
      obtain ⟨⟨hlen, hop⟩, hall⟩ := hb
      rcases splitAux_from_none (pyInner fm) 0 [] [] parts op hs with
        ⟨ho, _, _⟩ | ⟨pre, opc, post, hcs, hopc, hbal0, htpre, htpost, ho, hP⟩
      · obtain ⟨a, ha⟩ := hop
        rw [ho] at ha
        exact Option.noConfusion ha
      · simp only [List.nil_append] at hP
        by_cases hpre : pre = []
        · exfalso
          by_cases hpost : post = []
          · simp [hpre, hpost] at hP
            rw [hP] at hlen
            simp at hlen
          · simp [hpre, hpost] at hP
            rw [hP] at hlen
            simp at hlen
        · by_cases hpost : post = []
          · exfalso
            simp [hpre, hpost] at hP
            rw [hP] at hlen
            simp at hlen
          · simp [hpre, hpost] at hP
            subst hP
            have hb0 : bal pre = 0 := by omega
            refine ⟨pre, opc, post, hcs, hopc, hpre, hpost, hb0, ?_, ?_, ?_⟩
            · rw [hcs, topOps_append, hb0, htpre]
              have e0 : (0 : Int) + 0 = 0 := by norm_num
              rw [e0, topOps_op_cons hopc htpost]
            · exact hall pre (by simp)
            · exact hall post (by simp)
  · have e : is_basic_compound subs fm = false := by
      unfold is_basic_compound
      rw [if_neg hw]
    rw [e] at hb
    exact Bool.noConfusion hb

/-- Witness for C7 (amended) at the basic compound (P∧Q) with an empty
substitution table. -/
theorem c7_witness :
    (is_basic_compound [] "(P∧Q)".toList = true) ∧
    (¬((pyInner "(P∧Q)".toList).head? = some '¬')) ∧
    (∃ l opc r, pyInner "(P∧Q)".toList = l ++ opc :: r ∧ isOp opc = true ∧
      l ≠ [] ∧ r ≠ [] ∧ bal l = 0 ∧ topOps 0 (pyInner "(P∧Q)".toList) = 1 ∧
      (is_atomic l = true ∨ memSubst [] l = true) ∧
      (is_atomic r = true ∨ memSubst [] r = true)) :=
  ⟨by decide, by decide, c7_amended [] "(P∧Q)".toList (by decide) (by decide)⟩

/-! ## C6: atomic propositions wrapped in redundant parentheses -/

theorem wrapParens_eq (k : Nat) (p : List Char) :
    wrapParens k p = List.replicate k '(' ++ (p ++ List.replicate k ')') := by
  induction k with
  | zero => simp [wrapParens]
  | succ k ih =>
    show ('(' :: wrapParens k p) ++ [')'] = _
    rw [ih, List.replicate_succ, List.replicate_succ']
    simp [List.append_assoc]

/-- Every character of a wrapped token is a parenthesis or a character
of the token. -/
theorem wrapParens_mem {x : Char} {k : Nat} {p : List Char}
    (h : x ∈ wrapParens k p) : x = '(' ∨ x = ')' ∨ x ∈ p := by
  rw [wrapParens_eq] at h
  simp only [List.mem_append] at h
  rcases h with h | h | h
  · exact Or.inl (List.eq_of_mem_replicate h)
  · exact Or.inr (Or.inr h)
  · exact Or.inr (Or.inl (List.eq_of_mem_replicate h))

/-- A wrapped atomic token contains no operator character. -/
theorem wrapParens_no_op {k : Nat} {p : List Char} (hp : is_atomic p = true) :
    ∀ x ∈ wrapParens k p, isOp x = false := by
  intro x hx
  rcases wrapParens_mem hx with rfl | rfl | hxp
  · decide
  · decide
  · rcases is_atomic_chars hp x hxp with ha | hd
    · exact isAlpha_not_op ha
    · exact isDigit_not_op hd

/-- Whitespace stripping fixes a wrapped atomic token. -/
theorem stripSpaces_wrap {k : Nat} {p : List Char} (hp : is_atomic p = true) :
    stripSpaces (wrapParens k p) = wrapParens k p := by
  rw [stripSpaces, List.filter_eq_self]
  intro c hc
  rcases wrapParens_mem hc with rfl | rfl | hcp
  · decide
  · decide
  · rcases is_atomic_chars hp c hcp with ha | hd
    · simp only [bne_iff_ne, ne_eq]
      rintro rfl
      simp at ha
    · simp only [bne_iff_ne, ne_eq]
      rintro rfl
      simp at hd

theorem is_atomic_wrap_succ (k : Nat) (p : List Char) :
    is_atomic (wrapParens (k + 1) p) = false :=
  is_atomic_cons_paren _

theorem pyInner_wrapParens (k : Nat) (p : List Char) :
    pyInner (wrapParens (k + 1) p) = wrapParens k p :=
  pyInner_wrap _

/-- `is_basic_compound` never accepts a formula without operator
characters. -/
theorem no_op_not_basic (subs : Subst) (fm : List Char)
    (hop : ∀ c ∈ fm, isOp c = false) : is_basic_compound subs fm = false := by
  by_cases hw : fm.head? = some '(' && fm.getLast? = some ')'
  · have hsub : ∀ c ∈ pyInner fm, c ∈ fm := by
      intro c hc
      exact List.drop_subset _ _ (List.dropLast_subset _ hc)
    by_cases hneg : (pyInner fm).head? = some '¬'
    · exfalso
      have hmem : '¬' ∈ pyInner fm := by
        cases hpi : pyInner fm with
        | nil =>
          rw [hpi] at hneg
          exact Option.noConfusion hneg
        | cons a as =>
          rw [hpi] at hneg
          have ha : a = '¬' := Option.some.inj hneg
          rw [ha]
          exact List.mem_cons_self _ _
      have hfalse := hop '¬' (hsub _ hmem)
      rw [show isOp '¬' = true from by decide] at hfalse
      exact Bool.noConfusion hfalse
    · cases hs : splitAux (pyInner fm) 0 [] [] none with
      | none =>
        simp only [is_basic_compound]
        rw [if_pos hw, if_neg hneg, hs]
      | some pr =>
        obtain ⟨parts, op⟩ := pr
        rcases splitAux_from_none (pyInner fm) 0 [] [] parts op hs with
          ⟨ho, _, _⟩ | ⟨pre, opc, post, hcs, hopc, _, _, _, _, _⟩
        · subst ho
          simp only [is_basic_compound]
          rw [if_pos hw, if_neg hneg, hs]
          simp
        · exfalso
          have hmem : opc ∈ pyInner fm := by
            rw [hcs]
            simp
          have hfalse := hop opc (hsub _ hmem)
          rw [hopc] at hfalse
          exact Bool.noConfusion hfalse
  · unfold is_basic_compound
    rw [if_neg hw]

/-- The scanner of `find_first_basic_compound` never updates its record
on an operator-free formula. -/
theorem ffbcAux_no_op (subs : Subst) : ∀ (l : List Char) (i : Nat) (lvl ml : Int)
    (best : Option (Nat × Nat)), (∀ c ∈ l, isOp c = false) →
    ffbcAux subs l i lvl ml best = best := by
  intro l
  induction l with
  | nil =>
    intro i lvl ml best _
    rfl
  | cons c cs ih =>
    intro i lvl ml best hop
    have hop' : ∀ x ∈ cs, isOp x = false :=
      fun x hx => hop x (List.mem_cons_of_mem _ hx)
    simp only [ffbcAux]
    by_cases h1 : c = '('
    · rw [if_pos h1]
      by_cases h2 : lvl + 1 ≥ ml
      · rw [if_pos h2]
        cases hf : fseAux cs (i + 1) 1 with
        | none => exact ih (i + 1) (lvl + 1) ml best hop'
        | some pe =>
          have h3 : is_basic_compound subs ((c :: cs).take (pe + 1 - i)) = false := by
            refine no_op_not_basic subs _ ?_
            intro x hx
            exact hop x (List.take_subset _ _ hx)
          have h3' : ¬(is_basic_compound subs ((c :: cs).take (pe + 1 - i)) = true) := by
            rw [h3]
            decide
          show (if is_basic_compound subs ((c :: cs).take (pe + 1 - i)) = true then
                ffbcAux subs cs (i + 1) (lvl + 1) (lvl + 1) (some (i, pe + 1))
              else ffbcAux subs cs (i + 1) (lvl + 1) ml best) = best
          rw [if_neg h3']
          exact ih (i + 1) (lvl + 1) ml best hop'
      · rw [if_neg h2]
        exact ih (i + 1) (lvl + 1) ml best hop'
    · rw [if_neg h1]
      by_cases h2 : c = ')'
      · rw [if_pos h2]
        exact ih (i + 1) (lvl - 1) ml best hop'
      · rw [if_neg h2]
        exact ih (i + 1) lvl ml best hop'

/-- No basic compound is found in an operator-free formula. -/
theorem find_no_op (subs : Subst) (f : List Char)
    (hop : ∀ c ∈ f, isOp c = false) :
    find_first_basic_compound subs f = none := by
  unfold find_first_basic_compound
  rw [ffbcAux_no_op subs f 0 0 0 none hop]

/-- On an operator-free non-atomic working string, the reduction loop
rejects after its first iteration with the no-basic-compound error. -/
theorem reduceLoop_no_op (fuel : Nat) (st : SolveSt)
    (hna : is_atomic st.cur = false) (hop : ∀ c ∈ st.cur, isOp c = false) :
    reduceLoop (fuel + 1) st = .rejected { st with
      steps := st.steps ++ [curFormulaLine st.cur] ++ [errNoBasicLine, notValidNL] } := by
  have hna' : ¬(is_atomic st.cur = true) := by
    rw [hna]
    decide
  simp only [reduceLoop]
  rw [if_neg hna', find_no_op st.subs st.cur hop]

/-- The token scan skips a prefix without letters. -/
theorem scanAtomics_skip : ∀ (pref rest : List Char) (seen : List (List Char)),
    (∀ c ∈ pref, c.isAlpha = false) →
    scanAtomics (pref ++ rest) seen = scanAtomics rest seen := by
  intro pref
  induction pref with
  | nil =>
    intro rest seen _
    rw [List.nil_append]
  | cons c cs ih =>
    intro rest seen h
    have hc : ¬(c.isAlpha = true) := by
      rw [h c (List.mem_cons_self c cs)]
      decide
    show scanAtomicsAux ((c :: cs) ++ rest).length ((c :: cs) ++ rest) seen =
      scanAtomics rest seen
    rw [List.cons_append, List.length_cons]
    simp only [scanAtomicsAux]
    rw [if_neg hc]
    exact ih rest seen (fun x hx => h x (List.mem_cons_of_mem c hx))

/-- The token scan returns nothing on letter-free input, whatever the
fuel. -/
theorem scanAtomicsAux_no_alpha : ∀ (fuel : Nat) (l : List Char)
    (sn : List (List Char)), (∀ x ∈ l, x.isAlpha = false) →
    scanAtomicsAux fuel l sn = [] := by
  intro fuel
  induction fuel with
  | zero =>
    intro l sn _
    rfl
  | succ f ih =>
    intro l sn hl
    cases l with
    | nil => rfl
    | cons a as =>
      have ha : ¬(a.isAlpha = true) := by
        rw [hl a (List.mem_cons_self a as)]
        decide
      simp only [scanAtomicsAux]
      rw [if_neg ha]
      exact ih as sn (fun x hx => hl x (List.mem_cons_of_mem a hx))

/-- A digit run followed by closing parentheses: `takeWhile` keeps
exactly the digits. -/
theorem takeWhile_digits_close (k : Nat) : ∀ (l : List Char),
    l.all Char.isDigit = true →
    (l ++ List.replicate k ')').takeWhile Char.isDigit = l := by
  intro l
  induction l with
  | nil =>
    intro _
    cases k with
    | zero => rfl
    | succ k' => rfl
  | cons a as ih =>
    intro hl
    rw [List.all_cons, Bool.and_eq_true] at hl
    obtain ⟨ha, has⟩ := hl
    rw [List.cons_append, List.takeWhile_cons, if_pos ha, ih has]

/-- A digit run followed by closing parentheses: `dropWhile` drops
exactly the digits. -/
theorem dropWhile_digits_close (k : Nat) : ∀ (l : List Char),
    l.all Char.isDigit = true →
    (l ++ List.replicate k ')').dropWhile Char.isDigit = List.replicate k ')' := by
  intro l
  induction l with
  | nil =>
    intro _
    cases k with
    | zero => rfl
    | succ k' => rfl
  | cons a as ih =>
    intro hl
    rw [List.all_cons, Bool.and_eq_true] at hl
    obtain ⟨ha, has⟩ := hl
    rw [List.cons_append, List.dropWhile_cons, if_pos ha, ih has]

/-- The token scan on an unseen atomic token followed by closing
parentheses emits exactly its membership line. -/
theorem scanAtomics_token (c : Char) (rest : List Char) (k : Nat)
    (seen : List (List Char)) (halpha : c.isAlpha = true)
    (hdig : rest.all Char.isDigit = true)
    (hseen : seen.contains (c :: rest) = false) :
    scanAtomics ((c :: rest) ++ List.replicate k ')') seen = [atomLine (c :: rest)] := by
  have htake := takeWhile_digits_close k rest hdig
  have hdrop := dropWhile_digits_close k rest hdig
  show scanAtomicsAux ((c :: rest) ++ List.replicate k ')').length
      ((c :: rest) ++ List.replicate k ')') seen = [atomLine (c :: rest)]
  rw [List.cons_append, List.length_cons]
  simp only [scanAtomicsAux]
  rw [if_pos halpha, htake, hdrop]
  have hatom : is_atomic (c :: rest) = true := by
    cases rest with
    | nil => exact halpha
    | cons b bs =>
      show (c.isAlpha && (b :: bs).all Char.isDigit) = true
      rw [halpha, hdig]
      rfl
  have hcond : (is_atomic (c :: rest) && !(seen.contains (c :: rest))) = true := by
    rw [hatom, hseen]
    rfl
  rw [if_pos hcond,
    scanAtomicsAux_no_alpha ((rest ++ List.replicate k ')').length)
      (List.replicate k ')') (seen ++ [c :: rest])
      (fun x hx => by rw [List.eq_of_mem_replicate hx]; decide)]

/-- The token scan on a wrapped atomic token emits exactly the token's
membership line. -/
theorem scanAtomics_wrap (k : Nat) (p : List Char) (hp : is_atomic p = true) :
    scanAtomics (wrapParens k p) [] = [atomLine p] := by
  rw [wrapParens_eq,
    scanAtomics_skip (List.replicate k '(') (p ++ List.replicate k ')') []
      (fun x hx => by rw [List.eq_of_mem_replicate hx]; decide)]
  cases p with
  | nil => simp [is_atomic] at hp
  | cons c rest =>
    have halpha : c.isAlpha = true := by
      cases rest with
      | nil => exact hp
      | cons b bs =>
        have hp' : (c.isAlpha && (b :: bs).all Char.isDigit) = true := hp
        exact (Bool.and_eq_true .. |>.mp hp').1
    have hdig : rest.all Char.isDigit = true := by
      cases rest with
      | nil => rfl
      | cons b bs =>
        have hp' : (c.isAlpha && (b :: bs).all Char.isDigit) = true := hp
        exact (Bool.and_eq_true .. |>.mp hp').2
    exact scanAtomics_token c rest k [] halpha hdig rfl

/-- Counterexample to C6: on the doubly wrapped atom `((P))` the
redundant-parenthesization check does not fire (its inner `(P)` is not
atomic); instead the reduction loop fails to find a basic compound, so
neither possible redundancy line appears in the report. -/
theorem c6_counterexample :
    solveSteps "((P))".toList =
      some [analyzeLine "((P))".toList, atomLine "P".toList, beginSubstLine,
        curFormulaLine "((P))".toList, errNoBasicLine, notValidNL] ∧
    redundantLine "(P)".toList ∉ [analyzeLine "((P))".toList, atomLine "P".toList,
      beginSubstLine, curFormulaLine "((P))".toList, errNoBasicLine, notValidNL] ∧
    redundantLine "P".toList ∉ [analyzeLine "((P))".toList, atomLine "P".toList,
      beginSubstLine, curFormulaLine "((P))".toList, errNoBasicLine, notValidNL] :=
  ⟨by decide, by decide, by decide⟩

/-- C6 (amended): an atomic proposition wrapped in exactly one pair of
parentheses is rejected with the redundant-parenthesization error; for
two or more pairs the check does not fire and the rejection instead
carries the no-basic-compound error — in both cases with no reduction
step. -/
theorem c6_amended (p : List Char) (hp : is_atomic p = true) :
    (solveSteps (wrapParens 1 p) =
      some [analyzeLine (wrapParens 1 p), redundantLine p, notValidNL]) ∧
    solveTrace (wrapParens 1 p) = [] ∧
    ∀ j : Nat,
      (solveSteps (wrapParens (j + 2) p) =
        some [analyzeLine (wrapParens (j + 2) p), atomLine p, beginSubstLine,
          curFormulaLine (wrapParens (j + 2) p), errNoBasicLine, notValidNL]) ∧
      solveTrace (wrapParens (j + 2) p) = [] := by
  have hna1 : is_atomic (wrapParens 1 p) = false := is_atomic_wrap_succ 0 p
  have hpi1 : pyInner (wrapParens 1 p) = p := pyInner_wrapParens 0 p
  have hh1 : (wrapParens 1 p).head? = some '(' := rfl
  have hg1 : (wrapParens 1 p).getLast? = some ')' := by
    show (('(' :: wrapParens 0 p) ++ [')']).getLast? = some ')'
    exact List.getLast?_concat _
  have hcond1 : ((wrapParens 1 p).head? = some '(' &&
      (wrapParens 1 p).getLast? = some ')' &&
      is_atomic (pyInner (wrapParens 1 p))) = true := by
    rw [hh1, hg1, hpi1, hp]
    decide
  have hrun1 : runSolve (wrapParens 1 p) =
      some ([analyzeLine (wrapParens 1 p)] ++ [redundantLine p, notValidNL],
        false, []) := by
    simp only [runSolve]
    rw [if_neg (show ¬(is_atomic (wrapParens 1 p) = true) from by rw [hna1]; decide),
      if_pos hcond1, hpi1]
  refine ⟨?_, ?_, ?_⟩
  · simp [solveSteps, stripSpaces_wrap hp, hrun1]
  · simp [solveTrace, stripSpaces_wrap hp, hrun1]
  · intro j
    have hna : is_atomic (wrapParens (j + 2) p) = false := is_atomic_wrap_succ (j + 1) p
    have hpi : pyInner (wrapParens (j + 2) p) = wrapParens (j + 1) p :=
      pyInner_wrapParens (j + 1) p
    have hni : is_atomic (wrapParens (j + 1) p) = false := is_atomic_wrap_succ j p
    have hcond : ¬(((wrapParens (j + 2) p).head? = some '(' &&
        (wrapParens (j + 2) p).getLast? = some ')' &&
        is_atomic (pyInner (wrapParens (j + 2) p))) = true) := by
      intro hcon
      rw [Bool.and_eq_true] at hcon
      obtain ⟨-, hC⟩ := hcon
      rw [hpi, hni] at hC
      exact Bool.noConfusion hC
    have hop : ∀ x ∈ wrapParens (j + 2) p, isOp x = false := wrapParens_no_op hp
    have hloop := reduceLoop_no_op ((wrapParens (j + 2) p).length)
      { steps := [analyzeLine (wrapParens (j + 2) p)] ++
          scanAtomics (wrapParens (j + 2) p) [] ++ [beginSubstLine],
        revSteps := [], counter := 0, subs := [],
        cur := wrapParens (j + 2) p, trace := [] } hna hop
    have hrun : runSolve (wrapParens (j + 2) p) =
        some (([analyzeLine (wrapParens (j + 2) p)] ++
            scanAtomics (wrapParens (j + 2) p) [] ++ [beginSubstLine]) ++
            [curFormulaLine (wrapParens (j + 2) p)] ++ [errNoBasicLine, notValidNL],
          false, []) := by
      simp only [runSolve]
      rw [if_neg (show ¬(is_atomic (wrapParens (j + 2) p) = true) from by rw [hna]; decide),
        if_neg hcond, hloop]
    constructor
    · simp [solveSteps, stripSpaces_wrap hp, hrun, scanAtomics_wrap _ _ hp]
    · simp [solveTrace, stripSpaces_wrap hp, hrun]

/-- Witness for C6 (amended) at the atom `P`, wrapped once and twice. -/
theorem c6_witness :
    (is_atomic "P".toList = true) ∧
    (solveSteps (wrapParens 1 "P".toList) =
      some [analyzeLine (wrapParens 1 "P".toList), redundantLine "P".toList,
        notValidNL]) ∧
    (solveSteps (wrapParens 2 "P".toList) =
      some [analyzeLine (wrapParens 2 "P".toList), atomLine "P".toList,
        beginSubstLine, curFormulaLine (wrapParens 2 "P".toList), errNoBasicLine,
        notValidNL]) :=
  ⟨by decide, (c6_amended "P".toList (by decide)).1,
    ((c6_amended "P".toList (by decide)).2.2 0).1⟩

end WffSolver
